import Mathlib

/-!
# Verification of the ChromatographicPeakPicking core

Shallow embedding of the repository's hierarchical peak-picking engine:
the building-block sequence hierarchy (`src/peak_picking/hierarchy.py`),
the hierarchical peak selection and search-mask construction
(`src/peak_picking/sgppm_hierarchical.py`,
`src/src/chromatographicpeakpicking/peak_pickers/hierarchical_sgppm.py`),
the SWM and AALS baseline correctors (`src/baseline_correctors/`), and the
peak analyzer boundary walk and Gaussian-fit recovery
(`src/analyzers/peak_analyzer.py`).

Machine floats are modelled as exact rationals; a possibly non-finite
sample (NaN/inf) is `Option ℚ` with `none` marking a non-finite value.
Python dicts keyed by sequence are modelled as total functions with the
`defaultdict` default; Python sets are duplicate-free lists built with
`List.insert`/`List.union` (iteration order is irrelevant to every
property proved here); fallible code returns `Except`.
-/

set_option linter.unusedSectionVars false

namespace CPP

/-! ## Sequence hierarchy (`src/peak_picking/hierarchy.py`) -/

variable {α : Type} [DecidableEq α]

instance (priority := 2000) beqListOfDecidableEq : BEq (List α) := instBEqOfDecidableEq

/-- `Hierarchy.count_non_null`: number of elements different from the null
element. -/
def countNonNull (null : α) (s : List α) : ℕ :=
  s.countP (fun e => decide (e ≠ null))

/-- `non_null_elements` as computed inside
`generate_descendants_with_k_elements`: the non-null elements in their
original order. -/
def nonNulls (null : α) (s : List α) : List α :=
  s.filter (fun e => decide (e ≠ null))

/-- `Hierarchy.get_direct_descendants`: replace one non-null position with
the null element, collected into a set. -/
def directDescendants (null : α) (s : List α) : List (List α) :=
  (List.range s.length).foldr
    (fun i acc => if s.getD i null ≠ null then acc.insert (s.set i null) else acc) []

/-- The recursive `place_elements(curr_pos, elem_idx, curr_sequence)` of
`generate_descendants_with_k_elements`: for each selected element in order,
try every still-valid slot index from `curr_pos` to
`length - remaining` and recurse on the updated sequence, accumulating
into one result set.  The Python `range(min_pos, max_pos + 1)` is
`List.range' pos (L - rem + 1 - pos)` (both empty when
`max_pos < min_pos` in the reachable configurations, where the number of
remaining elements never exceeds `L`). -/
def placeElements (null : α) (L : ℕ) : ℕ → List α → List α → List (List α)
  | _, [], curr => [curr]
  | pos, e :: rest, curr =>
      (List.range' pos (L - (rest.length + 1) + 1 - pos)).foldr
        (fun p acc => (placeElements null L (p + 1) rest (curr.set p e)) ∪ acc) []

/-- `Hierarchy.generate_descendants_with_k_elements`: choose every
size-`k` ordered subset of the non-null elements
(`combinations(range(len(non_null_elements)), k)` enumerates exactly the
length-`k` sublists, in order) and place each into all positionally valid
slots of an initially all-null sequence. -/
def generateDescendantsWithK (null : α) (s : List α) (k : ℕ) : List (List α) :=
  if k > (nonNulls null s).length then []
  else
    (List.sublistsLen k (nonNulls null s)).foldr
      (fun sel acc => placeElements null s.length 0 sel (List.replicate s.length null) ∪ acc) []

/-- `Hierarchy.generate_all_descendants`: concatenate the sets generated
for every `k` from `0` to the non-null count. -/
def generateAllDescendants (null : α) (s : List α) : List (List α) :=
  (List.range (countNonNull null s + 1)).flatMap
    (fun k => generateDescendantsWithK null s k)

/-- State of a `Hierarchy` object: the `levels`, `descendants` and
`ancestors` defaultdicts (total functions defaulting to the empty set)
and the `sequence_values` dict (total function defaulting to `None`). -/
structure Hierarchy (α : Type) where
  levels : ℕ → List (List α)
  descendants : List α → List (List α)
  ancestors : List α → List (List α)
  sequenceValues : List α → Option ℚ

/-- `Hierarchy.__init__`: all maps empty. -/
def Hierarchy.empty (α : Type) : Hierarchy α :=
  ⟨fun _ => [], fun _ => [], fun _ => [], fun _ => none⟩

/-- `Hierarchy.add_sequence`: record the sequence at its level, store its
direct descendants, and add the sequence to each direct descendant's
ancestor set (the Python `for desc in direct_desc` loop). -/
def addSequence (null : α) (h : Hierarchy α) (s : List α) : Hierarchy α :=
  let lvl := countNonNull null s
  let dd := directDescendants null s
  { levels := fun l => if l = lvl then (h.levels l).insert s else h.levels l
    descendants := fun t => if t = s then h.descendants s ∪ dd else h.descendants t
    ancestors := dd.foldl
      (fun anc d => fun t => if t = d then (anc t).insert s else anc t) h.ancestors
    sequenceValues := h.sequenceValues }

/-- `Hierarchy.set_sequence_value`. -/
def setSequenceValue (h : Hierarchy α) (s : List α) (v : ℚ) : Hierarchy α :=
  { h with sequenceValues := fun t => if t = s then some v else h.sequenceValues t }

/-- A call against a `Hierarchy` object that mutates it:
`add_sequence` or `set_sequence_value`. -/
inductive HOp (α : Type) where
  | add (s : List α)
  | setVal (s : List α) (v : ℚ)

/-- Dispatch one hierarchy call. -/
def stepOp (null : α) (h : Hierarchy α) : HOp α → Hierarchy α
  | HOp.add s => addSequence null h s
  | HOp.setVal s v => setSequenceValue h s v

/-- Run a list of hierarchy operations from the freshly initialized
state. -/
def runOps (null : α) (ops : List (HOp α)) : Hierarchy α :=
  ops.foldl (stepOp null) (Hierarchy.empty α)

/-- The sequences passed to `add_sequence` in a run. -/
def addedSeqs (ops : List (HOp α)) : List (List α) :=
  ops.filterMap (fun op => match op with | HOp.add s => some s | _ => none)

/-- The sequences passed to `set_sequence_value` in a run. -/
def valuedSeqs (ops : List (HOp α)) : List (List α) :=
  ops.filterMap (fun op => match op with | HOp.setVal s _ => some s | _ => none)

/-- `Hierarchy.get_descendants` (defaultdict read). -/
def getDescendants (h : Hierarchy α) (s : List α) : List (List α) := h.descendants s

/-- `Hierarchy.get_ancestors` (defaultdict read). -/
def getAncestors (h : Hierarchy α) (s : List α) : List (List α) := h.ancestors s

/-- `Hierarchy.get_sequences_by_level` (defaultdict read). -/
def getSequencesByLevel (h : Hierarchy α) (l : ℕ) : List (List α) := h.levels l

/-- `Hierarchy.get_sequence_value` (`dict.get`, `None` when missing). -/
def getSequenceValue (h : Hierarchy α) (s : List α) : Option ℚ := h.sequenceValues s

/-- `Hierarchy.get_level`: recomputed as the non-null count. -/
def getLevel (null : α) (s : List α) : ℕ := countNonNull null s

instance {ε β : Type} [DecidableEq ε] [DecidableEq β] : DecidableEq (Except ε β) :=
  fun a b =>
    match a, b with
    | Except.error e, Except.error f => decidable_of_iff (e = f) (by simp)
    | Except.ok u, Except.ok v => decidable_of_iff (u = v) (by simp)
    | Except.error _, Except.ok _ => isFalse (by simp)
    | Except.ok _, Except.error _ => isFalse (by simp)

/-! ## Peaks and chromatograms -/

/-- The two `peak_metrics` fields read by hierarchical peak selection
(`peak['time']`, `peak['height']`). -/
structure SPeak where
  time : ℚ
  height : ℚ
deriving DecidableEq

/-- The `SGPPMConfig` fields used by the hierarchical model
(`src/peak_picking/sgppm_config.py`; `peak_time_threshold` is referenced
by the code but left to the configuration). -/
structure SGPPMConfig where
  height_threshold : ℚ
  pick_rel_height : ℚ
  peak_time_threshold : ℚ

/-- The `Chromatogram` fields touched by the hierarchical orchestrator:
time axis, raw and corrected intensity, search mask, building blocks,
detected peaks and the picked peak. -/
structure Chromatogram (α : Type) where
  x : List ℚ
  y : List ℚ
  yCorrected : Option (List ℚ)
  searchMask : Option (List Bool)
  buildingBlocks : List α
  peaks : List SPeak
  pickedPeak : Option SPeak

/-- `np.max` over a possibly empty list (`0` stands in for the undefined
empty case, which the pipeline never reaches). -/
def npMax (l : List ℚ) : ℚ := (l.max?).getD 0

/-- Python `max(values, default=0)`. -/
def maxD0 (l : List ℚ) : ℚ := (l.max?).getD 0

/-- Python `max(peaks, key=lambda p: p['time'])`, which keeps the first
maximal element, wrapped to `none` on the empty list (the code assigns
`picked_peak = None` when no valid peak remains). -/
def latestPeak (ps : List SPeak) : Option SPeak :=
  match ps with
  | [] => none
  | q :: rest => some (rest.foldl (fun acc p => if p.time > acc.time then p else acc) q)

/-! ## Hierarchical peak selection
(`HierarchicalSimpleGaussianPeakPickingModel._hierarchical_peak_selection`,
`src/peak_picking/sgppm_hierarchical.py` lines 349-442) -/

/-- The per-peak validity test of `_hierarchical_peak_selection`, in the
code's order: absolute height threshold, relative height threshold
against `chrom.y_corrected.max()`, descendant-intensity check for
`level > 0`, then the timing check against every descendant with a
recorded elution time. -/
def codeValidPeak (cfg : SGPPMConfig) (ymax maxDesc : ℚ) (lvl : ℕ)
    (descs : List (List α)) (elus : List α → Option ℚ) (p : SPeak) : Bool :=
  if p.height < cfg.height_threshold then false
  else if p.height < ymax * cfg.pick_rel_height then false
  else if lvl > 0 ∧ p.height ≤ maxDesc then false
  else descs.all (fun d =>
    match elus d with
    | none => true
    | some t => decide (p.time > t + cfg.peak_time_threshold))

/-- `_hierarchical_peak_selection` for one chromatogram: skip when no
peaks were detected, otherwise filter the detected peaks through
`codeValidPeak` and assign the latest-eluting survivor (or `None`). -/
def hierarchicalPeakSelection (cfg : SGPPMConfig) (null : α) (h : Hierarchy α)
    (elus intens : List α → Option ℚ) (c : Chromatogram α) : Chromatogram α :=
  if c.peaks = [] then c
  else
    let seq := c.buildingBlocks
    let descs := h.descendants seq
    let maxDesc := maxD0 (descs.map (fun d => (intens d).getD 0))
    let lvl := getLevel null seq
    let ymax := (match c.yCorrected with | some yc => npMax yc | none => 0)
    { c with pickedPeak :=
        latestPeak (c.peaks.filter (codeValidPeak cfg ymax maxDesc lvl descs elus)) }

/-- The claim's candidate-validity predicate, written from the claim's
words: height at least the absolute threshold, at least
`pick_rel_height` times the maximum corrected intensity, and — when the
sequence's level is positive — strictly above the maximum recorded
descendant intensity (unrecorded descendants counting as `0`, per
`peak_intensities.get(desc, 0)`) and strictly later than every recorded
descendant elution time plus the separation threshold. -/
def claimValidPeak (cfg : SGPPMConfig) (ymax maxDesc : ℚ) (lvl : ℕ)
    (descTimes : List ℚ) (p : SPeak) : Prop :=
  cfg.height_threshold ≤ p.height ∧ cfg.pick_rel_height * ymax ≤ p.height ∧
  (0 < lvl → maxDesc < p.height ∧
    ∀ t ∈ descTimes, t + cfg.peak_time_threshold < p.time)

instance (cfg : SGPPMConfig) (ymax maxDesc : ℚ) (lvl : ℕ) (descTimes : List ℚ)
    (p : SPeak) : Decidable (claimValidPeak cfg ymax maxDesc lvl descTimes p) := by
  unfold claimValidPeak; infer_instance

/-- The claim's selection: among the valid candidates, the latest-eluting
one. -/
def claimPick (cfg : SGPPMConfig) (null : α) (h : Hierarchy α)
    (elus intens : List α → Option ℚ) (c : Chromatogram α) : Option SPeak :=
  let descs := h.descendants c.buildingBlocks
  let descTimes := descs.filterMap elus
  let maxDesc := maxD0 (descs.map (fun d => (intens d).getD 0))
  let lvl := getLevel null c.buildingBlocks
  let ymax := (match c.yCorrected with | some yc => npMax yc | none => 0)
  latestPeak (c.peaks.filter
    (fun p => decide (claimValidPeak cfg ymax maxDesc lvl descTimes p)))

/-! ## Hierarchy constraints and value-map propagation
(`HierarchicalSGPPM`, `src/src/chromatographicpeakpicking/peak_pickers/hierarchical_sgppm.py`) -/

/-- `np.searchsorted(x, v)` (left side) for a sorted time axis: the
number of entries strictly below `v`. -/
def searchsorted (x : List ℚ) (v : ℚ) : ℕ :=
  (x.takeWhile (fun t => decide (t < v))).length

/-- NumPy slice assignment `a[:n] = 0`. -/
def zeroBefore : ℕ → List ℚ → List ℚ
  | _, [] => []
  | 0, l => l
  | n + 1, _ :: t => (0 : ℚ) :: zeroBefore n t

/-- `HierarchicalSGPPM._apply_hierarchy_constraints` for one
chromatogram (lines 107-138): when some descendant has a recorded
elution time, zero the corrected intensity strictly before the index of
`max(times) + peak_time_threshold`; the stored array is overwritten in
place and never restored. -/
def applyConstraintsOne (cfg : SGPPMConfig) (h : Hierarchy α)
    (elus : List α → Option ℚ) (c : Chromatogram α) : Chromatogram α :=
  let descs := h.descendants c.buildingBlocks
  let validTimes := descs.filterMap elus
  match validTimes.max? with
  | none => c
  | some m =>
    let minIdx := searchsorted c.x (m + cfg.peak_time_threshold)
    match c.yCorrected with
    | none => c
    | some yc => { c with yCorrected := some (zeroBefore minIdx yc) }

/-- `HierarchicalSimpleGaussianPeakPickingModel._create_search_masks`
for one chromatogram (`src/peak_picking/sgppm_hierarchical.py` lines
248-298): store a boolean mask that is `True` from the index of
`max(times) + peak_time_threshold` on (everywhere when no descendant
time is recorded); the intensity arrays are not touched. -/
def createSearchMaskOne (cfg : SGPPMConfig) (h : Hierarchy α)
    (elus : List α → Option ℚ) (c : Chromatogram α) : Chromatogram α :=
  let descs := h.descendants c.buildingBlocks
  let validTimes := descs.filterMap elus
  match validTimes.max? with
  | some m =>
    let minIdx := searchsorted c.x (m + cfg.peak_time_threshold)
    { c with searchMask := some ((List.range c.y.length).map (fun i => decide (minIdx ≤ i))) }
  | none => { c with searchMask := some (List.replicate c.y.length true) }

/-- A dict write `m[k] = v` on a sequence-keyed map. -/
def mapSet (m : List α → Option ℚ) (k : List α) (v : ℚ) : List α → Option ℚ :=
  fun t => if t = k then some v else m t

/-- The post-level bookkeeping of `HierarchicalSGPPM.pick_peaks` (lines
61-72): for each processed chromatogram, record the picked peak's time
and height into the per-sequence value maps; chromatograms whose
`picked_peak` is `None` are skipped. -/
def updateValueMaps (chroms : List (Chromatogram α))
    (elus intens : List α → Option ℚ) :
    (List α → Option ℚ) × (List α → Option ℚ) :=
  chroms.foldl
    (fun m c =>
      match c.pickedPeak with
      | some pk => (mapSet m.1 c.buildingBlocks pk.time,
                    mapSet m.2 c.buildingBlocks pk.height)
      | none => m)
    (elus, intens)

/-! ## SWM baseline correction (`src/baseline_correctors/swm.py`) -/

/-- `SWMConfig` with the window length as a (possibly invalid) integer;
the padding mode is the default `'edge'`. -/
structure SWMCfg where
  window_length : ℤ

inductive SWMError where
  | notInt | notPositive | notOdd | emptySignal | nonFinite | tooShort | allZero
deriving DecidableEq

/-- `np.min` of a window (`0` stands in for the undefined empty case,
unreachable because the window length is validated to be positive). -/
def minD0 (l : List ℚ) : ℚ := (l.min?).getD 0

/-- `np.lib.stride_tricks.sliding_window_view` followed by `np.min(...,
axis=1)`: the minimum over every length-`w` window. -/
def slidingMin (w : ℕ) (l : List ℚ) : List ℚ :=
  (List.range (l.length + 1 - w)).map (fun i => minD0 ((l.drop i).take w))

/-- `np.pad(y, (h, h), mode='edge')`: repeat the edge values. -/
def edgePad (h : ℕ) (l : List ℚ) : List ℚ :=
  List.replicate h (l.headD 0) ++ l ++ List.replicate h (l.getLastD 0)

/-- `SWM.correct_baseline` with `_validate_inputs` inlined in the code's
order (the `isinstance(window_length, int)` check is satisfied by
construction here): subtract the sliding-window minimum of the padded
signal, keep original values where the difference is positive and zero
elsewhere, fail when nothing non-zero remains, and compact out the zero
entries. -/
def swmCorrectBaseline (cfg : SWMCfg) (y : List (Option ℚ)) :
    Except SWMError (List ℚ) :=
  if cfg.window_length ≤ 0 then Except.error SWMError.notPositive
  else if cfg.window_length % 2 = 0 then Except.error SWMError.notOdd
  else if y.length = 0 then Except.error SWMError.emptySignal
  else if ¬ y.all Option.isSome then Except.error SWMError.nonFinite
  else if y.length < cfg.window_length.toNat then Except.error SWMError.tooShort
  else
    let w := cfg.window_length.toNat
    let yq := y.reduceOption
    let half := w / 2
    let yMin := slidingMin w (edgePad half yq)
    let yCorr := (yq.zip yMin).map (fun pr => if pr.1 - pr.2 > 0 then pr.1 else 0)
    if yCorr.all (fun v => v = 0) then Except.error SWMError.allZero
    else Except.ok (yCorr.filter (fun v => decide (v ≠ 0)))

/-- The claim's description of SWM, written from the claim's words: the
correction succeeds exactly when the window length is a positive odd
integer, the signal is non-empty, finite everywhere and at least as long
as the window, and at least one point survives; the successful value
keeps each original sample whose difference against the sliding-window
minimum of the edge-padded signal is positive, zeroes the rest, and
compacts out the zeroed points. -/
def swmClaimed (cfg : SWMCfg) (y : List (Option ℚ)) : Option (List ℚ) :=
  let w := cfg.window_length.toNat
  let yq := y.reduceOption
  let kept := (yq.zip (slidingMin w (edgePad (w / 2) yq))).map
    (fun pr => if pr.1 - pr.2 > 0 then pr.1 else 0)
  if (0 < cfg.window_length ∧ Odd cfg.window_length ∧ y ≠ [] ∧
      (∀ v ∈ y, v ≠ none) ∧ cfg.window_length.toNat ≤ y.length ∧
      ∃ v ∈ kept, v ≠ 0 : Prop)
  then some (kept.filter (fun v => decide (v ≠ 0)))
  else none

/-! ## AALS baseline correction (`src/baseline_correctors/aals.py`) -/

/-- `AALSConfig` (`src/configs/aals_config.py`): smoothing weight,
asymmetry and iteration count. -/
structure AALSCfg where
  lam : ℚ
  p : ℚ
  niter : ℕ

inductive AALSError where
  | nonFinite | tooShort | linAlg | noBaseline
deriving DecidableEq

/-- A determinant by Laplace expansion along the first column; unlike
`Matrix.det` it reduces inside the kernel, and it is proved equal to
`Matrix.det` below. -/
def detExp : {n : ℕ} → Matrix (Fin n) (Fin n) ℚ → ℚ
  | 0, _ => 1
  | n + 1, M =>
      ∑ i : Fin (n + 1),
        (-1 : ℚ) ^ (i : ℕ) * M i 0 * detExp (M.submatrix i.succAbove Fin.succ)

/-- The adjugate built from `detExp` (pointwise `Matrix.adjugate`). -/
def adjExp {n : ℕ} (M : Matrix (Fin n) (Fin n) ℚ) : Matrix (Fin n) (Fin n) ℚ :=
  Matrix.of fun i j => detExp (M.updateRow j (Pi.single i 1))

/-- `np.linalg.solve` in exact arithmetic: `none` exactly on a singular
matrix, otherwise the unique solution `Z⁻¹ b` computed by Cramer's
rule. -/
def solveLin {n : ℕ} (Z : Matrix (Fin n) (Fin n) ℚ) (b : Fin n → ℚ) :
    Option (Fin n → ℚ) :=
  if detExp Z = 0 then none else some ((detExp Z)⁻¹ • (adjExp Z).mulVec b)

/-- `np.diff(np.eye(L), n=2, axis=0)`: the second-difference operator,
row `i` being `e i - 2 e (i+1) + e (i+2)`. -/
def secondDiff (n : ℕ) : Matrix (Fin (n - 2)) (Fin n) ℚ :=
  Matrix.of fun i j =>
    if (j : ℕ) = (i : ℕ) then 1
    else if (j : ℕ) = (i : ℕ) + 1 then -2
    else if (j : ℕ) = (i : ℕ) + 2 then 1 else 0

/-- The system matrix `Z = W + lam * D.T @ D` of one AALS iteration. -/
def aalsSystem (lam : ℚ) {n : ℕ} (w : Fin n → ℚ) : Matrix (Fin n) (Fin n) ℚ :=
  Matrix.diagonal w + lam • ((secondDiff n).transpose * secondDiff n)

/-- The iteration loop of `AALS.correct_baseline`: `niter` times, solve
`(W + lam·DᵀD) z = W y` for the current weights, then reweight each
sample to `p` where `y > z` and `1 - p` elsewhere; the last solution is
carried in an option (`z = None` before the first iteration), and a
singular system raises `LinAlgError`. -/
def aalsIter (cfg : AALSCfg) {n : ℕ} (yv : Fin n → ℚ) :
    ℕ → (Fin n → ℚ) → Option (Fin n → ℚ) →
    Except AALSError ((Fin n → ℚ) × Option (Fin n → ℚ))
  | 0, w, z => Except.ok (w, z)
  | Nat.succ k, w, _ =>
    match solveLin (aalsSystem cfg.lam w) (fun i => w i * yv i) with
    | none => Except.error AALSError.linAlg
    | some z =>
      let wNew := fun i => if yv i > z i then cfg.p else 1 - cfg.p
      aalsIter cfg yv k wNew (some z)

/-- `AALS.correct_baseline`: validate (finite, at least 3 points), run
the reweighted iteration from unit weights, fail if no baseline estimate
was produced (`z is None`), else return `y - z`. -/
def aalsCorrectBaseline (cfg : AALSCfg) (y : List (Option ℚ)) :
    Except AALSError (List ℚ) :=
  if ¬ y.all Option.isSome then Except.error AALSError.nonFinite
  else
    let yq := y.reduceOption
    if yq.length < 3 then Except.error AALSError.tooShort
    else
      match aalsIter cfg (fun i : Fin yq.length => yq.get i) cfg.niter (fun _ => 1) none with
      | Except.error e => Except.error e
      | Except.ok (_, none) => Except.error AALSError.noBaseline
      | Except.ok (_, some z) => Except.ok (List.ofFn (fun i => yq.get i - z i))

/-! ## Peak analyzer (`src/analyzers/peak_analyzer.py`) -/

/-- The peak-metrics fields touched by boundary search and Gaussian
fitting. -/
structure APeak where
  index : ℕ
  time : ℚ
  height : ℚ
  left_base_index : ℕ
  right_base_index : ℕ
  left_base_time : ℚ
  right_base_time : ℚ
  gaussian_residuals : Option ℚ
  fitFailed : Option Bool
deriving DecidableEq

inductive IdxErr where
  | indexOutOfRange
deriving DecidableEq

/-- Python/NumPy scalar indexing `y[i]` for `i : ℤ`: negative indices
wrap once from the end, anything else out of `[-len, len)` raises
`IndexError`. -/
def pyGet (y : List ℚ) (i : ℤ) : Except IdxErr ℚ :=
  if 0 ≤ i ∧ i < (y.length : ℤ) then Except.ok (y.getD i.toNat 0)
  else if -(y.length : ℤ) ≤ i ∧ i < 0 then Except.ok (y.getD (i + y.length).toNat 0)
  else Except.error IdxErr.indexOutOfRange

/-- The leftward loop of `PeakAnalyzer._calculate_peak_boundaries`
(lines 31-49): `while left > 0 and not (y[left] <= y[left-1] and y[left]
<= y[left+1]): left -= 1`, with Python's left-to-right short-circuit
evaluation (so `y[left+1]` is only read when `y[left] <= y[left-1]`
holds). -/
def leftWalk (y : List ℚ) : ℕ → Except IdxErr ℕ
  | 0 => Except.ok 0
  | l + 1 => do
    let b ← pyGet y (l + 1 : ℕ)
    let a ← pyGet y (l : ℕ)
    if b ≤ a then do
      let c ← pyGet y (l + 2 : ℕ)
      if b ≤ c then Except.ok (l + 1) else leftWalk y l
    else leftWalk y l

/-- The rightward loop of `_calculate_peak_boundaries`: `while right <
len(y) - 1 and not (y[right] <= y[right-1] and y[right] <= y[right+1]):
right += 1`; note `y[right-1]` wraps to `y[-1]` when `right = 0`. -/
def rightWalkAux (y : List ℚ) : ℕ → ℕ → Except IdxErr ℕ
  | 0, r => Except.ok r
  | fuel + 1, r => do
    let b ← pyGet y (r : ℕ)
    let a ← pyGet y ((r : ℤ) - 1)
    if b ≤ a then do
      let c ← pyGet y (r + 1 : ℕ)
      if b ≤ c then Except.ok r else rightWalkAux y fuel (r + 1)
    else rightWalkAux y fuel (r + 1)

def rightWalk (y : List ℚ) (r : ℕ) : Except IdxErr ℕ :=
  rightWalkAux y (y.length - 1 - r) r

/-- `PeakAnalyzer._calculate_peak_boundaries`: walk left and right from
the apex index and store the boundary indices and times (the time axis
`x` has the same length as `y` in a well-formed chromatogram). -/
def calculatePeakBoundaries (x y : List ℚ) (pk : APeak) : Except IdxErr APeak := do
  let l ← leftWalk y pk.index
  let r ← rightWalk y pk.index
  Except.ok { pk with
    left_base_index := l, right_base_index := r,
    left_base_time := x.getD l 0, right_base_time := x.getD r 0 }

/-- The exceptions `curve_fit` can raise that
`_calculate_gaussian_fit` catches. -/
inductive FitErr where
  | runtimeNonConvergence | valueInvalidInput
deriving DecidableEq

/-- The inputs assembled for `scipy.optimize.curve_fit` by
`_calculate_gaussian_fit` (lines 51-112): the boundary-sliced data,
baseline-corrected values, initial guesses from the half-maximum
crossing (falling back to a quarter of the boundary span), and the
±50 % / ±500 % bounds. -/
structure FitInput where
  xdata : List ℚ
  ydata : List ℚ
  p0amp : ℚ
  p0mean : ℚ
  p0sigma : ℚ
  loAmp : ℚ
  loMean : ℚ
  loSigma : ℚ
  hiAmp : ℚ
  hiMean : ℚ
  hiSigma : ℚ
deriving DecidableEq

/-- The estimation part of `_calculate_gaussian_fit` before the
`curve_fit` call, translated literally (`2.355 = 471/200`). -/
def fitInputOf (x y : List ℚ) (pk : APeak) : FitInput :=
  let count := pk.right_base_index + 1 - pk.left_base_index
  let xs := (x.drop pk.left_base_index).take count
  let ys := (y.drop pk.left_base_index).take count
  let yb := min (y.getD pk.left_base_index 0) (y.getD pk.right_base_index 0)
  let ycorr := ys.map (fun v => v - yb)
  let amp := pk.height - yb
  let halfMax := amp / 2
  let idxs := (List.range ycorr.length).filter (fun i => decide (halfMax ≤ ycorr.getD i 0))
  let sigmaEst :=
    if 2 ≤ idxs.length then (xs.getD (idxs.getLastD 0) 0 - xs.getD (idxs.headD 0) 0) / (471 / 200)
    else (xs.getLastD 0 - xs.headD 0) / 4
  { xdata := xs, ydata := ycorr,
    p0amp := amp, p0mean := pk.time, p0sigma := max sigmaEst (1 / 10),
    loAmp := amp * (1 / 2), loMean := xs.headD 0, loSigma := sigmaEst * (1 / 5),
    hiAmp := amp * (3 / 2), hiMean := xs.getLastD 0, hiSigma := sigmaEst * 5 }

/-- Arithmetic mean (`np.mean`). -/
def meanQ (l : List ℚ) : ℚ := l.sum / l.length

/-- `PeakAnalyzer._calculate_gaussian_fit`: call the fitter on the
estimated inputs; on `RuntimeError`/`ValueError` record the worst-case
residual `1.0` and a failure marker instead of propagating; on success
record the RMSE residual normalized by the peak height.  The external
numerics (`curve_fit` itself, the Gaussian evaluation and the square
root, all transcendental) are oracle parameters. -/
def calculateGaussianFit (curveFitO : FitInput → Except FitErr (ℚ × ℚ × ℚ))
    (gaussO : ℚ × ℚ × ℚ → ℚ → ℚ) (sqrtO : ℚ → ℚ)
    (x y : List ℚ) (pk : APeak) : Except FitErr APeak :=
  let inp := fitInputOf x y pk
  match curveFitO inp with
  | Except.error _ =>
      Except.ok { pk with gaussian_residuals := some 1, fitFailed := some true }
  | Except.ok popt =>
      let count := pk.right_base_index + 1 - pk.left_base_index
      let ys := (y.drop pk.left_base_index).take count
      let yb := min (y.getD pk.left_base_index 0) (y.getD pk.right_base_index 0)
      let yFit := inp.xdata.map (fun t => gaussO popt t + yb)
      let resid := sqrtO (meanQ ((ys.zip yFit).map (fun pr => (pr.1 - pr.2) ^ 2))) / pk.height
      Except.ok { pk with gaussian_residuals := some resid, fitFailed := some false }

/-! ## Concrete fixtures used by the witnesses and counterexamples -/

/-- A fresh peak-metrics record (all derived fields unset / zero). -/
def basePeak (i : ℕ) (t h : ℚ) : APeak :=
  { index := i, time := t, height := h, left_base_index := 0, right_base_index := 0,
    left_base_time := 0, right_base_time := 0, gaussian_residuals := none, fitFailed := none }

/-- The end-to-end scenario of the spec's hierarchical-ordering test:
base sequence of length 2 over naturals with `0` as the null element;
the two level-1 descendants eluted at `t = 3` and `t = 4`. -/
def scenarioHierarchy : Hierarchy ℕ :=
  runOps 0 [HOp.add [1, 2], HOp.add [1, 0], HOp.add [0, 2], HOp.add [0, 0]]

def scenarioElus : List ℕ → Option ℚ :=
  fun t => if t = [0, 2] then some 3 else if t = [1, 0] then some 4 else none

def scenarioIntens : List ℕ → Option ℚ :=
  fun t => if t = [0, 2] then some 1 else if t = [1, 0] then some 1 else none

def scenarioConfig : SGPPMConfig :=
  { height_threshold := 1 / 2, pick_rel_height := 2 / 5, peak_time_threshold := 1 / 2 }

/-- The level-2 chromatogram of the scenario: candidate peaks at `t = 2`
and `t = 6`. -/
def scenarioChrom : Chromatogram ℕ :=
  { x := [2, 6], y := [5, 5], yCorrected := some [5, 5], searchMask := none,
    buildingBlocks := [1, 2], peaks := [⟨2, 5⟩, ⟨6, 5⟩], pickedPeak := none }

/-- A level-1 chromatogram whose corrected intensity has signal before
the constraint cutoff (used to exhibit the missing restore). -/
def maskChrom : Chromatogram ℕ :=
  { x := [0, 2], y := [1, 1], yCorrected := some [5, 7], searchMask := none,
    buildingBlocks := [1], peaks := [], pickedPeak := none }

def maskHierarchy : Hierarchy ℕ := runOps 0 [HOp.add [1]]

def maskElus : List ℕ → Option ℚ := fun t => if t = [0] then some 1 else none

/-- A chromatogram with no picked peak, for the no-peak propagation
witness. -/
def noPeakChrom : Chromatogram ℕ :=
  { x := [0], y := [1], yCorrected := some [1], searchMask := none,
    buildingBlocks := [1], peaks := [⟨0, 1⟩], pickedPeak := none }

/-- A chromatogram of a different sequence that did pick a peak. -/
def siblingChrom : Chromatogram ℕ :=
  { x := [0], y := [1], yCorrected := some [1], searchMask := none,
    buildingBlocks := [2], peaks := [⟨3, 7⟩], pickedPeak := some ⟨3, 7⟩ }

/-- A curve fitter that always fails with the non-convergence runtime
error. -/
def failingFitO : FitInput → Except FitErr (ℚ × ℚ × ℚ) :=
  fun _ => Except.error FitErr.runtimeNonConvergence

/-! # Theorems -/

/-! ## Helper lemmas -/

theorem mapSet_ne {m : List α → Option ℚ} {k t : List α} (h : t ≠ k) (v : ℚ) :
    mapSet m k v t = m t := by
  simp [mapSet, h]

theorem updateValueMaps_cons (c : Chromatogram α) (rest : List (Chromatogram α))
    (elus intens : List α → Option ℚ) :
    updateValueMaps (c :: rest) elus intens =
      match c.pickedPeak with
      | some pk => updateValueMaps rest (mapSet elus c.buildingBlocks pk.time)
          (mapSet intens c.buildingBlocks pk.height)
      | none => updateValueMaps rest elus intens := by
  cases hp : c.pickedPeak <;> simp [updateValueMaps, List.foldl_cons, hp]

/-! ## Claim C5 -/

/-- Claim C5 (no-peak propagation): for every batch of processed
chromatograms, if every chromatogram carrying sequence `s` ended peak
selection with `picked_peak = None`, then the post-level bookkeeping of
`HierarchicalSGPPM.pick_peaks` leaves both per-sequence value maps
(elution times and peak intensities) unchanged at key `s`: no entry is
added, removed or modified for that sequence, so ancestors receive
constraints only from sibling descendants that did pick a peak, and the
no-peak outcome is not an error. -/
theorem noPeak_leaves_value_maps_unchanged
    (chroms : List (Chromatogram α)) (elus intens : List α → Option ℚ)
    (s : List α) (hnp : ∀ c ∈ chroms, c.buildingBlocks = s → c.pickedPeak = none) :
    (updateValueMaps chroms elus intens).1 s = elus s ∧
    (updateValueMaps chroms elus intens).2 s = intens s := by
  induction chroms generalizing elus intens with
  | nil => exact ⟨rfl, rfl⟩
  | cons c rest ih =>
    rw [updateValueMaps_cons]
    cases hp : c.pickedPeak with
    | none =>
      exact ih elus intens (fun d hd hbb => hnp d (List.mem_cons_of_mem _ hd) hbb)
    | some pk =>
      have hbb : c.buildingBlocks ≠ s := by
        intro hcon
        have := hnp c (List.mem_cons_self _ _) hcon
        rw [hp] at this
        exact Option.some_ne_none pk this
      have hs : s ≠ c.buildingBlocks := fun hcon => hbb hcon.symm
      have h1 := ih (mapSet elus c.buildingBlocks pk.time)
        (mapSet intens c.buildingBlocks pk.height)
        (fun d hd hbbd => hnp d (List.mem_cons_of_mem _ hd) hbbd)
      exact ⟨h1.1.trans (mapSet_ne hs pk.time), h1.2.trans (mapSet_ne hs pk.height)⟩

/-- Witness for C5: a level with one no-peak chromatogram for `[1]` and
a sibling for `[2]` that picked a peak; the maps are untouched at `[1]`
(and, incidentally, the sibling recorded its values). -/
theorem noPeak_leaves_value_maps_unchanged_witness :
    (updateValueMaps [noPeakChrom, siblingChrom] (fun _ => none) (fun _ => none)).1 [1] = none ∧
    (updateValueMaps [noPeakChrom, siblingChrom] (fun _ => none) (fun _ => none)).2 [1] = none :=
  noPeak_leaves_value_maps_unchanged [noPeakChrom, siblingChrom]
    (fun _ => none) (fun _ => none) [1]
    (by decide)

/-! ## Hierarchy state lemmas (used by C3 and C10) -/

theorem addSequence_descendants_apply (null : α) (h : Hierarchy α) (s t : List α) :
    (addSequence null h s).descendants t =
      if t = s then h.descendants s ∪ directDescendants null s else h.descendants t := rfl

theorem addSequence_levels_apply (null : α) (h : Hierarchy α) (s : List α) (l : ℕ) :
    (addSequence null h s).levels l =
      if l = countNonNull null s then (h.levels l).insert s else h.levels l := rfl

theorem addSequence_values_apply (null : α) (h : Hierarchy α) (s : List α) :
    (addSequence null h s).sequenceValues = h.sequenceValues := rfl

theorem foldl_ancestors_apply (s : List α) (dd : List (List α))
    (anc : List α → List (List α)) (t : List α) :
    dd.foldl (fun a d => fun u => if u = d then (a u).insert s else a u) anc t =
      if t ∈ dd then (anc t).insert s else anc t := by
  induction dd generalizing anc with
  | nil => simp
  | cons d ds ih =>
    rw [List.foldl_cons, ih]
    by_cases htd : t = d
    · subst htd
      by_cases hts : t ∈ ds
      · simp [hts, List.insert_of_mem (List.mem_insert_self s (anc t))]
      · simp [hts]
    · by_cases hts : t ∈ ds <;> simp [hts, htd]

theorem addSequence_ancestors_apply (null : α) (h : Hierarchy α) (s t : List α) :
    (addSequence null h s).ancestors t =
      if t ∈ directDescendants null s then (h.ancestors t).insert s else h.ancestors t := by
  have : (addSequence null h s).ancestors t =
      (directDescendants null s).foldl
        (fun a d => fun u => if u = d then (a u).insert s else a u) h.ancestors t := rfl
  rw [this, foldl_ancestors_apply]

theorem mem_foldr_insertIf (l : List ℕ) (g : ℕ → List α)
    (q : ℕ → Prop) [DecidablePred q] (init : List (List α)) (d : List α) :
    (d ∈ l.foldr (fun i acc => if q i then acc.insert (g i) else acc) init) ↔
      (∃ i ∈ l, q i ∧ d = g i) ∨ d ∈ init := by
  induction l with
  | nil => simp
  | cons i t ih =>
    by_cases hq : q i
    · simp only [List.foldr_cons, if_pos hq, List.mem_insert_iff, ih, List.mem_cons]
      constructor
      · rintro (rfl | (⟨j, hj, hqj, rfl⟩ | hd))
        · exact Or.inl ⟨i, Or.inl rfl, hq, rfl⟩
        · exact Or.inl ⟨j, Or.inr hj, hqj, rfl⟩
        · exact Or.inr hd
      · rintro (⟨j, (rfl | hj), hqj, rfl⟩ | hd)
        · exact Or.inl rfl
        · exact Or.inr (Or.inl ⟨j, hj, hqj, rfl⟩)
        · exact Or.inr (Or.inr hd)
    · simp only [List.foldr_cons, if_neg hq, ih, List.mem_cons]
      constructor
      · rintro (⟨j, hj, hqj, rfl⟩ | hd)
        · exact Or.inl ⟨j, Or.inr hj, hqj, rfl⟩
        · exact Or.inr hd
      · rintro (⟨j, (rfl | hj), hqj, rfl⟩ | hd)
        · exact absurd hqj hq
        · exact Or.inl ⟨j, hj, hqj, rfl⟩
        · exact Or.inr hd

theorem mem_directDescendants {null : α} {s d : List α} :
    d ∈ directDescendants null s ↔
      ∃ i, i < s.length ∧ s.getD i null ≠ null ∧ d = s.set i null := by
  have h := mem_foldr_insertIf (List.range s.length) (fun i => s.set i null)
    (fun i => s.getD i null ≠ null) [] d
  unfold directDescendants
  constructor
  · intro hd
    rcases h.mp hd with ⟨i, hi, hc, hdi⟩ | hfalse
    · exact ⟨i, List.mem_range.mp hi, hc, hdi⟩
    · exact absurd hfalse (List.not_mem_nil d)
  · rintro ⟨i, hi, hc, hdi⟩
    exact h.mpr (Or.inl ⟨i, List.mem_range.mpr hi, hc, hdi⟩)

theorem countNonNull_set {null : α} {s : List α} {i : ℕ}
    (hi : i < s.length) (hne : s.getD i null ≠ null) :
    countNonNull null (s.set i null) + 1 = countNonNull null s := by
  induction s generalizing i with
  | nil => simp at hi
  | cons a t ih =>
    cases i with
    | zero =>
      have ha : a ≠ null := by simpa using hne
      simp [countNonNull, List.countP_cons, ha]
    | succ j =>
      have hj : j < t.length := by simpa using hi
      have hnej : t.getD j null ≠ null := by simpa using hne
      have hrec := ih hj hnej
      show countNonNull null (a :: t.set j null) + 1 = countNonNull null (a :: t)
      simp only [countNonNull, List.countP_cons] at *
      omega

theorem countNonNull_pos_of_directDescendant {null : α} {s d : List α}
    (h : d ∈ directDescendants null s) :
    countNonNull null d + 1 = countNonNull null s ∧ d.length = s.length := by
  obtain ⟨i, hi, hne, rfl⟩ := mem_directDescendants.mp h
  exact ⟨countNonNull_set hi hne, List.length_set s i null⟩

/-! ## Claim C2 -/

theorem mem_foldr_union {β : Type} (l : List β) (f : β → List (List α)) (t : List α) :
    t ∈ l.foldr (fun b acc => f b ∪ acc) [] ↔ ∃ b ∈ l, t ∈ f b := by
  induction l with
  | nil => simp
  | cons b bs ih => simp [List.foldr_cons, List.mem_union_iff, ih]

theorem nodup_foldr_union {β : Type} (l : List β) (f : β → List (List α)) :
    (l.foldr (fun b acc => f b ∪ acc) []).Nodup := by
  induction l with
  | nil => simp
  | cons b bs ih =>
    rw [List.foldr_cons]
    exact List.Nodup.union _ ih

theorem length_union_disjoint (l1 l2 : List (List α)) (hnd : l1.Nodup)
    (hdisj : ∀ a ∈ l1, a ∉ l2) : (l1 ∪ l2).length = l1.length + l2.length := by
  induction l1 with
  | nil => simp [List.nil_union]
  | cons a t ih =>
    rw [List.cons_union]
    have hnmem : a ∉ t ∪ l2 := by
      rw [List.mem_union_iff]
      rintro (h | h)
      · exact (List.nodup_cons.mp hnd).1 h
      · exact hdisj a (List.mem_cons_self a t) h
    rw [List.length_insert_of_not_mem hnmem,
      ih (List.nodup_cons.mp hnd).2 (fun a2 h2 => hdisj a2 (List.mem_cons_of_mem _ h2))]
    simp [Nat.add_comm, Nat.add_assoc, Nat.add_left_comm]

theorem length_foldr_union {β : Type} (l : List β) (f : β → List (List α))
    (hnd : ∀ b ∈ l, (f b).Nodup) (hl : l.Nodup)
    (hdisj : ∀ b ∈ l, ∀ b2 ∈ l, b ≠ b2 → ∀ t ∈ f b, t ∉ f b2) :
    (l.foldr (fun b acc => f b ∪ acc) []).length = (l.map (fun b => (f b).length)).sum := by
  induction l with
  | nil => rfl
  | cons b bs ih =>
    rw [List.foldr_cons, List.map_cons, List.sum_cons]
    rw [length_union_disjoint _ _ (hnd b (List.mem_cons_self b bs)) ?hdj]
    · rw [ih (fun b2 h2 => hnd b2 (List.mem_cons_of_mem _ h2)) (List.nodup_cons.mp hl).2
        (fun b2 h2 b3 h3 hne => hdisj b2 (List.mem_cons_of_mem _ h2)
          b3 (List.mem_cons_of_mem _ h3) hne)]
    case hdj =>
      intro a ha hmem
      rw [mem_foldr_union] at hmem
      obtain ⟨b2, hb2, hfb2⟩ := hmem
      have hne : b ≠ b2 := by
        rintro rfl
        exact (List.nodup_cons.mp hl).1 hb2
      exact hdisj b (List.mem_cons_self b bs) b2 (List.mem_cons_of_mem _ hb2) hne a ha hfb2

theorem take_succ_set (l : List α) (p : ℕ) (e : α) (h : p < l.length) :
    (l.set p e).take (p + 1) = l.take p ++ [e] := by
  rw [List.set_eq_take_cons_drop e h, List.take_append_eq_append_take]
  have h1 : (l.take p).length = p := by
    simp [List.length_take]
    omega
  rw [h1, show p + 1 - p = 1 from by omega,
    List.take_of_length_le (by omega : (l.take p).length ≤ p + 1)]
  rfl

theorem drop_succ_set (l : List α) (p : ℕ) (e : α) (h : p < l.length) :
    (l.set p e).drop (p + 1) = l.drop (p + 1) := by
  rw [List.set_eq_take_cons_drop e h, List.drop_append_eq_append_drop]
  have h1 : (l.take p).length = p := by
    simp [List.length_take]
    omega
  rw [h1, show p + 1 - p = 1 from by omega,
    List.drop_of_length_le (by omega : (l.take p).length ≤ p + 1)]
  rfl

theorem take_append_replicate_nulls (null : α) (curr : List α) (pos p : ℕ)
    (hcurr : ∀ a ∈ curr.drop pos, a = null) (hple : pos ≤ p) (hpL : p ≤ curr.length) :
    curr.take p = curr.take pos ++ List.replicate (p - pos) null := by
  rw [show p = pos + (p - pos) from by omega, List.take_add]
  congr 1
  apply List.eq_replicate_iff.mpr
  constructor
  · simp [List.length_take]
    omega
  · intro b hb
    exact hcurr b (List.take_subset _ _ hb)

theorem mem_placeElements (null : α) :
    ∀ (sel : List α) (pos : ℕ) (curr t : List α),
      (∀ e ∈ sel, e ≠ null) →
      (∀ a ∈ curr.drop pos, a = null) →
      pos + sel.length ≤ curr.length →
      (t ∈ placeElements null curr.length pos sel curr ↔
        ∃ Q, t = curr.take pos ++ Q ∧ Q.length = curr.length - pos ∧
          nonNulls null Q = sel) := by
  intro sel
  induction sel with
  | nil =>
    intro pos curr t hsel hcurr hlen
    rw [placeElements]
    constructor
    · intro ht
      have hteq : t = curr := List.mem_singleton.mp ht
      subst hteq
      refine ⟨t.drop pos, (List.take_append_drop pos t).symm, by simp, ?_⟩
      rw [nonNulls, List.filter_eq_nil_iff]
      intro a ha
      simp [hcurr a ha]
    · rintro ⟨Q, htQ, hQlen, hQfil⟩
      have hQnull : ∀ a ∈ Q, a = null := by
        intro a ha
        by_contra hne
        have hmem : a ∈ nonNulls null Q := by
          rw [nonNulls, List.mem_filter]
          exact ⟨ha, by simpa using hne⟩
        rw [hQfil] at hmem
        exact absurd hmem (List.not_mem_nil a)
      have hdnull : curr.drop pos = Q := by
        rw [List.eq_replicate_iff.mpr ⟨List.length_drop pos curr, hcurr⟩,
          List.eq_replicate_iff.mpr ⟨hQlen, hQnull⟩]
      rw [htQ, ← hdnull, List.take_append_drop]
      exact List.mem_singleton.mpr rfl
  | cons e rest ih =>
    intro pos curr t hsel hcurr hlen
    have he : e ≠ null := hsel e (List.mem_cons_self _ _)
    rw [placeElements, mem_foldr_union]
    constructor
    · rintro ⟨p, hpmem, hrec⟩
      rw [List.mem_range'_1] at hpmem
      have hple : pos ≤ p := hpmem.1
      have hpbound : p + rest.length + 1 ≤ curr.length := by
        have h2 := hpmem.2
        simp at hlen
        omega
      have hpltL : p < curr.length := by omega
      have hcurr2 : ∀ a ∈ (curr.set p e).drop (p + 1), a = null := by
        rw [drop_succ_set curr p e hpltL]
        intro a ha
        rw [show p + 1 = pos + (p + 1 - pos) from by omega, ← List.drop_drop] at ha
        exact hcurr a (List.drop_subset _ _ ha)
      have hlen2 : (p + 1) + rest.length ≤ (curr.set p e).length := by
        simp [List.length_set]
        omega
      have hIH := ih (p + 1) (curr.set p e) t
        (fun x hx => hsel x (List.mem_cons_of_mem _ hx)) hcurr2 hlen2
      rw [List.length_set] at hIH
      obtain ⟨Q2, htQ2, hQ2len, hQ2fil⟩ := hIH.mp hrec
      refine ⟨List.replicate (p - pos) null ++ e :: Q2, ?_, ?_, ?_⟩
      · rw [htQ2, take_succ_set curr p e hpltL,
          take_append_replicate_nulls null curr pos p hcurr hple (le_of_lt hpltL)]
        simp
      · simp [hQ2len]
        omega
      · have hrep : List.filter (fun a => decide (a ≠ null)) (List.replicate (p - pos) null)
            = [] := by
          rw [List.filter_eq_nil_iff]
          intro a ha
          simp [List.eq_of_mem_replicate ha]
        simp only [nonNulls, List.filter_append, hrep, List.filter_cons, List.nil_append]
        rw [show (decide (e ≠ null)) = true from by simpa using he]
        simp only [if_pos]
        rw [show List.filter (fun a => decide (a ≠ null)) Q2 = nonNulls null Q2 from rfl,
          hQ2fil]
    · rintro ⟨Q, htQ, hQlen, hQfil⟩
      rw [nonNulls] at hQfil
      obtain ⟨Q1, Q2, hQsplit, hQ1null, hedec, hQ2fil⟩ := List.filter_eq_cons_iff.mp hQfil
      have hQ1n : ∀ b ∈ Q1, b = null := by
        intro b hb
        have := hQ1null b hb
        simpa using this
      have hQ2ge : rest.length ≤ Q2.length := by
        have h1 := congrArg List.length hQ2fil
        have h2 := List.length_filter_le (fun a => decide (a ≠ null)) Q2
        omega
      have hQlen2 : Q1.length + 1 + Q2.length = curr.length - pos := by
        rw [hQsplit] at hQlen
        simp at hQlen
        omega
      have hlen' : pos + (rest.length + 1) ≤ curr.length := by
        simp at hlen
        omega
      have hpbound : (pos + Q1.length) + rest.length + 1 ≤ curr.length := by omega
      have hpltL : pos + Q1.length < curr.length := by omega
      refine ⟨pos + Q1.length, ?_, ?_⟩
      · rw [List.mem_range'_1]
        refine ⟨by omega, ?_⟩
        omega
      · have hcurr2 : ∀ a ∈ (curr.set (pos + Q1.length) e).drop (pos + Q1.length + 1),
            a = null := by
          rw [drop_succ_set curr (pos + Q1.length) e hpltL]
          intro a ha
          rw [show pos + Q1.length + 1 = pos + (Q1.length + 1) from by omega,
            ← List.drop_drop] at ha
          exact hcurr a (List.drop_subset _ _ ha)
        have hlen2 : (pos + Q1.length + 1) + rest.length ≤
            (curr.set (pos + Q1.length) e).length := by
          simp [List.length_set]
          omega
        have hIH := ih (pos + Q1.length + 1) (curr.set (pos + Q1.length) e) t
          (fun x hx => hsel x (List.mem_cons_of_mem _ hx)) hcurr2 hlen2
        rw [List.length_set] at hIH
        apply hIH.mpr
        refine ⟨Q2, ?_, ?_, hQ2fil⟩
        · rw [take_succ_set curr (pos + Q1.length) e hpltL,
            take_append_replicate_nulls null curr pos (pos + Q1.length) hcurr
              (by omega) (le_of_lt hpltL), htQ, hQsplit]
          have hQ1rep : Q1 = List.replicate (pos + Q1.length - pos) null :=
            List.eq_replicate_iff.mpr ⟨by omega, hQ1n⟩
          rw [← hQ1rep]
          simp
        · clear hIH
          omega

theorem nodup_placeElements (null : α) (L pos : ℕ) (sel curr : List α) :
    (placeElements null L pos sel curr).Nodup := by
  cases sel with
  | nil =>
    rw [placeElements]
    exact List.nodup_singleton curr
  | cons e rest =>
    rw [placeElements]
    exact nodup_foldr_union _ _

theorem sum_range'_choose (L k : ℕ) :
    ∀ (cnt pos : ℕ), cnt = L - k - pos →
      ((List.range' pos cnt).map (fun p => Nat.choose (L - (p + 1)) k)).sum =
        Nat.choose (L - pos) (k + 1) := by
  intro cnt
  induction cnt with
  | zero =>
    intro pos hcnt
    have hle : L - pos < k + 1 := by omega
    simp [Nat.choose_eq_zero_of_lt hle]
  | succ c ihc =>
    intro pos hcnt
    rw [show List.range' pos (c + 1) = pos :: List.range' (pos + 1) c from rfl,
      List.map_cons, List.sum_cons, ihc (pos + 1) (by omega),
      show L - pos = (L - (pos + 1)) + 1 from by omega, Nat.choose_succ_succ]

theorem take_of_mem_placeElements (null : α) (e : α) (rest : List α) (curr t : List α)
    (p : ℕ) (hpltL : p < curr.length)
    (ht : t ∈ placeElements null curr.length (p + 1) rest (curr.set p e))
    (hsel : ∀ x ∈ rest, x ≠ null)
    (hcurrp : ∀ a ∈ curr.drop (p + 1), a = null)
    (hlen2 : (p + 1) + rest.length ≤ curr.length) :
    t.take (p + 1) = curr.take p ++ [e] := by
  have hcurr2 : ∀ a ∈ (curr.set p e).drop (p + 1), a = null := by
    rw [drop_succ_set curr p e hpltL]
    exact hcurrp
  have hIH := mem_placeElements null rest (p + 1) (curr.set p e) t hsel hcurr2
    (by simp [List.length_set]; omega)
  rw [List.length_set] at hIH
  obtain ⟨Q2, htQ2, hQ2len, _⟩ := hIH.mp ht
  rw [htQ2, take_succ_set curr p e hpltL, List.take_append_eq_append_take]
  have hA : (curr.take p ++ [e]).length = p + 1 := by
    simp [List.length_take]
    omega
  rw [List.take_of_length_le (by omega : (curr.take p ++ [e]).length ≤ p + 1), hA]
  simp

theorem placeElements_apart (null : α) (e : α) (rest : List α) (curr t : List α)
    (pos p q : ℕ) (hple : pos ≤ p) (hpq : p < q) (hqbound : q + rest.length + 1 ≤ curr.length)
    (hsel : ∀ x ∈ rest, x ≠ null) (he : e ≠ null)
    (hcurr : ∀ a ∈ curr.drop pos, a = null)
    (hpbound : p + rest.length + 1 ≤ curr.length)
    (htp : t ∈ placeElements null curr.length (p + 1) rest (curr.set p e))
    (htq : t ∈ placeElements null curr.length (q + 1) rest (curr.set q e)) :
    False := by
  have hdropP : ∀ a ∈ curr.drop (p + 1), a = null := by
    intro a ha
    rw [show p + 1 = pos + (p + 1 - pos) from by omega, ← List.drop_drop] at ha
    exact hcurr a (List.drop_subset _ _ ha)
  have hdropQ : ∀ a ∈ curr.drop (q + 1), a = null := by
    intro a ha
    rw [show q + 1 = pos + (q + 1 - pos) from by omega, ← List.drop_drop] at ha
    exact hcurr a (List.drop_subset _ _ ha)
  have hpltL : p < curr.length := by omega
  have hqltL : q < curr.length := by omega
  have h1 := take_of_mem_placeElements null e rest curr t p hpltL htp hsel hdropP (by omega)
  have h2 := take_of_mem_placeElements null e rest curr t q hqltL htq hsel hdropQ (by omega)
  have htk : t.take (p + 1) = curr.take (p + 1) := by
    have e1 : t.take (p + 1) = (t.take (q + 1)).take (p + 1) := by
      rw [List.take_take]
      congr 1
      omega
    rw [e1, h2, List.take_append_eq_append_take]
    have hqlen : (curr.take q).length = q := by
      simp [List.length_take]
      omega
    rw [hqlen, show p + 1 - q = 0 from by omega, List.take_zero, List.append_nil,
      List.take_take]
    congr 1
    omega
  have hnulltake : curr.take (p + 1) = curr.take p ++ [null] := by
    rw [take_append_replicate_nulls null curr pos (p + 1) hcurr (by omega) (by omega),
      take_append_replicate_nulls null curr pos p hcurr hple (le_of_lt hpltL),
      show p + 1 - pos = (p - pos) + 1 from by omega, List.replicate_succ']
    simp
  have hcontr : curr.take p ++ [e] = curr.take p ++ [null] :=
    h1.symm.trans (htk.trans hnulltake)
  have he2 : e = null := by simpa using hcontr
  exact he he2

theorem length_placeElements (null : α) :
    ∀ (sel : List α) (pos : ℕ) (curr : List α),
      (∀ e ∈ sel, e ≠ null) →
      (∀ a ∈ curr.drop pos, a = null) →
      pos + sel.length ≤ curr.length →
      (placeElements null curr.length pos sel curr).length =
        Nat.choose (curr.length - pos) sel.length := by
  intro sel
  induction sel with
  | nil =>
    intro pos curr _ _ _
    rw [placeElements]
    simp
  | cons e rest ih =>
    intro pos curr hsel hcurr hlen
    have he : e ≠ null := hsel e (List.mem_cons_self _ _)
    have hsr : ∀ x ∈ rest, x ≠ null := fun x hx => hsel x (List.mem_cons_of_mem _ hx)
    have hlen' : pos + rest.length + 1 ≤ curr.length := by
      simp at hlen
      omega
    rw [placeElements, length_foldr_union _ _
      (fun b _ => nodup_placeElements null _ _ _ _)
      (List.nodup_range' _ _)
      ?disj]
    case disj =>
      intro p hp q hq hne t htp htq
      rw [List.mem_range'_1] at hp hq
      have hpb : p + rest.length + 1 ≤ curr.length := by
        have := hp.2
        omega
      have hqb : q + rest.length + 1 ≤ curr.length := by
        have := hq.2
        omega
      rcases Nat.lt_or_ge p q with hpq | hge
      · exact placeElements_apart null e rest curr t pos p q hp.1 hpq hqb hsr he hcurr
          hpb htp htq
      · have hqp : q < p := Nat.lt_of_le_of_ne hge (fun hh => hne hh.symm)
        exact placeElements_apart null e rest curr t pos q p hq.1 hqp hpb hsr he hcurr
          hqb htq htp
    have hmapeq : (List.range' pos (curr.length - (rest.length + 1) + 1 - pos)).map
          (fun p => (placeElements null curr.length (p + 1) rest (curr.set p e)).length) =
        (List.range' pos (curr.length - (rest.length + 1) + 1 - pos)).map
          (fun p => Nat.choose (curr.length - (p + 1)) rest.length) := by
      apply List.map_eq_map_iff.mpr
      intro p hp
      rw [List.mem_range'_1] at hp
      have hpb : p + rest.length + 1 ≤ curr.length := by
        have := hp.2
        omega
      have hpltL : p < curr.length := by omega
      have hcurr2 : ∀ a ∈ (curr.set p e).drop (p + 1), a = null := by
        rw [drop_succ_set curr p e hpltL]
        intro a ha
        rw [show p + 1 = pos + (p + 1 - pos) from by omega, ← List.drop_drop] at ha
        exact hcurr a (List.drop_subset _ _ ha)
      have hres := ih (p + 1) (curr.set p e) hsr hcurr2
        (by simp [List.length_set]; omega)
      rw [List.length_set] at hres
      exact hres
    rw [hmapeq, sum_range'_choose curr.length rest.length _ pos (by omega)]
    simp

theorem countNonNull_eq_length_nonNulls (null : α) (l : List α) :
    countNonNull null l = (nonNulls null l).length :=
  List.countP_eq_length_filter _ _

theorem sum_map_const {β : Type} (l : List β) (c : ℕ) :
    (l.map (fun _ => c)).sum = l.length * c := by
  induction l with
  | nil => simp
  | cons a t ih =>
    simp [ih, Nat.succ_mul]
    omega

theorem nonNulls_le_length (null : α) (s : List α) :
    (nonNulls null s).length ≤ s.length :=
  List.length_filter_le _ s

theorem mem_generateDescendantsWithK (null : α) (s : List α) (k : ℕ) (t : List α) :
    t ∈ generateDescendantsWithK null s k ↔
      k ≤ (nonNulls null s).length ∧ t.length = s.length ∧
        (nonNulls null t) ∈ List.sublistsLen k (nonNulls null s) := by
  unfold generateDescendantsWithK
  by_cases hk : k > (nonNulls null s).length
  · rw [if_pos hk]
    simp
    omega
  · rw [if_neg hk, mem_foldr_union]
    push_neg at hk
    constructor
    · rintro ⟨sel, hselmem, ht⟩
      have hsellen : sel.length = k := List.mem_sublistsLen.mp hselmem |>.2
      have hselnn : ∀ x ∈ sel, x ≠ null := by
        intro x hx
        have hsub := (List.mem_sublistsLen.mp hselmem).1
        have hxs : x ∈ nonNulls null s := hsub.subset hx
        rw [nonNulls, List.mem_filter] at hxs
        simpa using hxs.2
      have hchar := mem_placeElements null sel 0 (List.replicate s.length null) t hselnn
        (by
          intro a ha
          rw [List.drop_zero] at ha
          exact List.eq_of_mem_replicate ha)
        (by have hle := nonNulls_le_length null s; simp [hsellen]; omega)
      rw [List.length_replicate] at hchar
      obtain ⟨Q, htQ, hQlen, hQfil⟩ := hchar.mp ht
      simp at htQ
      refine ⟨hk, ?_, ?_⟩
      · rw [htQ]
        omega
      · rw [htQ, hQfil]
        exact hselmem
    · rintro ⟨_, hlen, hmem⟩
      refine ⟨nonNulls null t, hmem, ?_⟩
      have hselnn : ∀ x ∈ nonNulls null t, x ≠ null := by
        intro x hx
        rw [nonNulls, List.mem_filter] at hx
        simpa using hx.2
      have hsellen : (nonNulls null t).length = k := List.mem_sublistsLen.mp hmem |>.2
      have hchar := mem_placeElements null (nonNulls null t) 0
        (List.replicate s.length null) t hselnn
        (by
          intro a ha
          rw [List.drop_zero] at ha
          exact List.eq_of_mem_replicate ha)
        (by have hle := nonNulls_le_length null s; simp [hsellen]; omega)
      rw [List.length_replicate] at hchar
      apply hchar.mpr
      exact ⟨t, by simp, by simp [hlen], rfl⟩

theorem nodup_generateDescendantsWithK (null : α) (s : List α) (k : ℕ) :
    (generateDescendantsWithK null s k).Nodup := by
  unfold generateDescendantsWithK
  by_cases hk : k > (nonNulls null s).length
  · rw [if_pos hk]
    exact List.nodup_nil
  · rw [if_neg hk]
    exact nodup_foldr_union _ _

theorem length_generateDescendantsWithK (null : α) (s : List α) (k : ℕ)
    (hnd : (nonNulls null s).Nodup) (hk : k ≤ (nonNulls null s).length) :
    (generateDescendantsWithK null s k).length =
      Nat.choose (nonNulls null s).length k * Nat.choose s.length k := by
  unfold generateDescendantsWithK
  rw [if_neg (by omega)]
  have hrepl : ∀ a ∈ (List.replicate s.length null).drop 0, a = null := by
    intro a ha
    rw [List.drop_zero] at ha
    exact List.eq_of_mem_replicate ha
  rw [length_foldr_union _ _
    (fun b _ => nodup_placeElements null _ _ _ _)
    (List.nodup_sublistsLen k hnd)
    ?disj]
  case disj =>
    intro sel1 h1 sel2 h2 hne t ht1 ht2
    have hfil : ∀ sel, sel ∈ List.sublistsLen k (nonNulls null s) →
        t ∈ placeElements null s.length 0 sel (List.replicate s.length null) →
        nonNulls null t = sel := by
      intro sel hselmem htmem
      have hselnn : ∀ x ∈ sel, x ≠ null := by
        intro x hx
        have hsub := (List.mem_sublistsLen.mp hselmem).1
        have hxs : x ∈ nonNulls null s := hsub.subset hx
        rw [nonNulls, List.mem_filter] at hxs
        simpa using hxs.2
      have hsellen : sel.length = k := List.mem_sublistsLen.mp hselmem |>.2
      have hchar := mem_placeElements null sel 0 (List.replicate s.length null) t hselnn
        hrepl (by have hle := nonNulls_le_length null s; simp [hsellen]; omega)
      rw [List.length_replicate] at hchar
      obtain ⟨Q, htQ, _, hQfil⟩ := hchar.mp htmem
      simp at htQ
      rw [htQ, hQfil]
    exact hne ((hfil sel1 h1 ht1).symm.trans (hfil sel2 h2 ht2))
  have hmapeq : (List.sublistsLen k (nonNulls null s)).map
        (fun sel => (placeElements null s.length 0 sel (List.replicate s.length null)).length) =
      (List.sublistsLen k (nonNulls null s)).map
        (fun _ => Nat.choose s.length k) := by
    apply List.map_eq_map_iff.mpr
    intro sel hselmem
    have hselnn : ∀ x ∈ sel, x ≠ null := by
      intro x hx
      have hsub := (List.mem_sublistsLen.mp hselmem).1
      have hxs : x ∈ nonNulls null s := hsub.subset hx
      rw [nonNulls, List.mem_filter] at hxs
      simpa using hxs.2
    have hsellen : sel.length = k := List.mem_sublistsLen.mp hselmem |>.2
    have hres := length_placeElements null sel 0 (List.replicate s.length null) hselnn
      hrepl (by have hle := nonNulls_le_length null s; simp [hsellen]; omega)
    rw [List.length_replicate] at hres
    rw [hres, hsellen]
    simp
  rw [hmapeq, sum_map_const, List.length_sublistsLen]

/-- Claim C2 is false as stated: on the two-element sequence `[0, 1]`
(null element `9`, two non-null positions), `generate_all_descendants`
returns 6 distinct sequences of length 2 — the placement enumeration
also moves the kept elements into other slots — while the claim's
formula `sum C(2, k)` gives 4. -/
theorem descendant_count_counterexample :
    countNonNull 9 ([0, 1] : List ℕ) = 2 ∧
    (generateAllDescendants 9 ([0, 1] : List ℕ)).Nodup ∧
    (generateAllDescendants 9 ([0, 1] : List ℕ)).length = 6 ∧
    (∑ k in Finset.range 3, Nat.choose 2 k) = 4 := by decide

/-- Claim C2 amended: for every sequence `s` with `n` non-null positions
whose non-null elements are pairwise distinct,
`generate_all_descendants(s)` returns exactly
`sum_{k=0}^{n} C(n, k) * C(len(s), k)` distinct sequences — for each
achievable non-null count `k`, `C(n, k)` choices of kept elements times
`C(len(s), k)` order-preserving placements — and every returned sequence
has length `len(s)`. -/
theorem descendant_completeness_amended (null : α) (s : List α)
    (hnd : (nonNulls null s).Nodup) :
    (∀ t ∈ generateAllDescendants null s, t.length = s.length) ∧
    (generateAllDescendants null s).Nodup ∧
    (∀ k, k ≤ countNonNull null s →
      (generateDescendantsWithK null s k).length =
        Nat.choose (countNonNull null s) k * Nat.choose s.length k) ∧
    (generateAllDescendants null s).length =
      ∑ k in Finset.range (countNonNull null s + 1),
        Nat.choose (countNonNull null s) k * Nat.choose s.length k := by
  have hcnt := countNonNull_eq_length_nonNulls null s
  refine ⟨?_, ?_, ?_, ?_⟩
  · intro t ht
    rw [generateAllDescendants, List.mem_flatMap] at ht
    obtain ⟨k, _, htk⟩ := ht
    exact ((mem_generateDescendantsWithK null s k t).mp htk).2.1
  · rw [generateAllDescendants]
    apply List.nodup_flatMap.mpr
    refine ⟨fun k _ => nodup_generateDescendantsWithK null s k, ?_⟩
    have hpw := (List.nodup_range (countNonNull null s + 1))
    apply hpw.imp
    intro k1 k2 hne t ht1 ht2
    have hc1 := ((mem_generateDescendantsWithK null s k1 t).mp ht1).2.2
    have hc2 := ((mem_generateDescendantsWithK null s k2 t).mp ht2).2.2
    exact hne ((List.mem_sublistsLen.mp hc1).2.symm.trans (List.mem_sublistsLen.mp hc2).2)
  · intro k hk
    rw [length_generateDescendantsWithK null s k hnd (by omega), hcnt]
  · rw [generateAllDescendants, List.length_flatMap]
    have hmapeq : (List.range (countNonNull null s + 1)).map
          (List.length ∘ fun k => generateDescendantsWithK null s k) =
        (List.range (countNonNull null s + 1)).map
          (fun k => Nat.choose (countNonNull null s) k * Nat.choose s.length k) := by
      apply List.map_eq_map_iff.mpr
      intro k hkmem
      rw [List.mem_range] at hkmem
      show (generateDescendantsWithK null s k).length = _
      rw [length_generateDescendantsWithK null s k hnd (by omega), hcnt]
    rw [hmapeq]
    rfl

/-- Witness for the amended C2: for `s = [1, 0, 2]` with null `0`
(`n = 2`, `len(s) = 3`, distinct non-null elements `[1, 2]`), the code
generates `1*1 + 2*3 + 1*3 = 10` distinct length-3 descendants. -/
theorem descendant_completeness_amended_witness :
    (generateAllDescendants 0 ([1, 0, 2] : List ℕ)).length = 10 ∧
    (∀ t ∈ generateAllDescendants 0 ([1, 0, 2] : List ℕ), t.length = 3) ∧
    (generateAllDescendants 0 ([1, 0, 2] : List ℕ)).Nodup := by
  obtain ⟨hlen, hnd, _, htot⟩ :=
    descendant_completeness_amended 0 ([1, 0, 2] : List ℕ) (by decide)
  exact ⟨htot.trans (by decide), fun t ht => hlen t ht, hnd⟩

/-! ## Claim C3 -/

/-- Claim C3 (hierarchy invariants): after any sequence of
`add_sequence` / `set_sequence_value` calls on a fresh hierarchy,
`get_level` returns exactly the count of non-null positions; every
sequence stored at level `l` has non-null count `l`; and for every `d`
in `descendants(s)`, `s` is a member of `ancestors(d)` and
`level(d) = level(s) - 1` — the level strictly decreases by exactly one
from a sequence to each of its direct descendants. -/
theorem hierarchy_invariants (null : α) (ops : List (HOp α)) :
    (∀ s, getLevel null s = countNonNull null s) ∧
    (∀ l s, s ∈ getSequencesByLevel (runOps null ops) l → l = getLevel null s) ∧
    (∀ s d, d ∈ getDescendants (runOps null ops) s →
      s ∈ getAncestors (runOps null ops) d ∧
      getLevel null d + 1 = getLevel null s) := by
  refine ⟨fun _ => rfl, ?_⟩
  have main : ∀ (ops : List (HOp α)) (h : Hierarchy α),
      (∀ l s, s ∈ h.levels l → l = countNonNull null s) →
      (∀ s d, d ∈ h.descendants s → s ∈ h.ancestors d ∧
        countNonNull null d + 1 = countNonNull null s) →
      (∀ l s, s ∈ (ops.foldl (stepOp null) h).levels l → l = countNonNull null s) ∧
      (∀ s d, d ∈ (ops.foldl (stepOp null) h).descendants s →
        s ∈ (ops.foldl (stepOp null) h).ancestors d ∧
        countNonNull null d + 1 = countNonNull null s) := by
    intro ops
    induction ops with
    | nil => intro h hl hd; exact ⟨hl, hd⟩
    | cons op rest ih =>
      intro h hl hd
      rw [List.foldl_cons]
      cases op with
      | setVal s v =>
        exact ih (setSequenceValue h s v) hl hd
      | add s =>
        refine ih (addSequence null h s) ?_ ?_
        · intro l u hu
          rw [addSequence_levels_apply] at hu
          by_cases heq : l = countNonNull null s
          · rw [if_pos heq] at hu
            rcases List.mem_insert_iff.mp hu with rfl | hu
            · exact heq
            · exact hl l u hu
          · rw [if_neg heq] at hu
            exact hl l u hu
        · intro u d hdmem
          rw [addSequence_descendants_apply] at hdmem
          have hanc : ∀ t, h.ancestors t ⊆ (addSequence null h s).ancestors t := by
            intro t w hw
            rw [addSequence_ancestors_apply]
            by_cases hm : t ∈ directDescendants null s
            · rw [if_pos hm]; exact List.mem_insert_iff.mpr (Or.inr hw)
            · rwa [if_neg hm]
          by_cases hus : u = s
          · subst hus
            rw [if_pos rfl] at hdmem
            rcases List.mem_union_iff.mp hdmem with hold | hnew
            · obtain ⟨hin, hcount⟩ := hd u d hold
              exact ⟨hanc d hin, hcount⟩
            · refine ⟨?_, (countNonNull_pos_of_directDescendant hnew).1⟩
              rw [addSequence_ancestors_apply, if_pos hnew]
              exact List.mem_insert_self u _
          · rw [if_neg hus] at hdmem
            obtain ⟨hin, hcount⟩ := hd u d hdmem
            exact ⟨hanc d hin, hcount⟩
  have base := main ops (Hierarchy.empty α) (by simp [Hierarchy.empty])
    (by simp [Hierarchy.empty])
  exact ⟨base.1, base.2⟩

/-- Witness for C3 on the scenario hierarchy: `[1, 0]` is a stored
direct descendant of `[1, 2]`, so `[1, 2]` appears among its ancestors
and the level drops from 2 to 1. -/
theorem hierarchy_invariants_witness :
    [1, 0] ∈ getDescendants scenarioHierarchy [1, 2] ∧
    [1, 2] ∈ getAncestors scenarioHierarchy [1, 0] ∧
    getLevel 0 [1, 0] + 1 = getLevel 0 [1, 2] := by
  have hmem : [1, 0] ∈ getDescendants scenarioHierarchy [1, 2] := by decide
  have := (hierarchy_invariants 0
    [HOp.add [1, 2], HOp.add [1, 0], HOp.add [0, 2], HOp.add [0, 0]]).2.2 [1, 2] [1, 0] hmem
  exact ⟨hmem, this.1, this.2⟩

/-! ## Claim C10 -/

theorem foldl_descendants_untouched (null : α) (ops : List (HOp α)) (h : Hierarchy α)
    (q : List α) (hq : q ∉ addedSeqs ops) :
    (ops.foldl (stepOp null) h).descendants q = h.descendants q := by
  induction ops generalizing h with
  | nil => rfl
  | cons op rest ih =>
    rw [List.foldl_cons]
    simp only [stepOp]
    cases op with
    | setVal s v =>
      have hq2 : q ∉ addedSeqs rest := by simpa [addedSeqs] using hq
      exact ih (setSequenceValue h s v) hq2
    | add s =>
      have hqs : q ≠ s ∧ q ∉ addedSeqs rest := by
        have := hq
        simp [addedSeqs] at this
        exact ⟨this.1, by simpa [addedSeqs] using this.2⟩
      rw [ih (addSequence null h s) hqs.2, addSequence_descendants_apply, if_neg hqs.1]

theorem foldl_values_untouched (null : α) (ops : List (HOp α)) (h : Hierarchy α)
    (q : List α) (hq : q ∉ valuedSeqs ops) :
    (ops.foldl (stepOp null) h).sequenceValues q = h.sequenceValues q := by
  induction ops generalizing h with
  | nil => rfl
  | cons op rest ih =>
    rw [List.foldl_cons]
    simp only [stepOp]
    cases op with
    | add s =>
      have hq2 : q ∉ valuedSeqs rest := by simpa [valuedSeqs] using hq
      rw [ih (addSequence null h s) hq2, addSequence_values_apply]
    | setVal s v =>
      have hqs : q ≠ s ∧ q ∉ valuedSeqs rest := by
        have := hq
        simp [valuedSeqs] at this
        exact ⟨this.1, by simpa [valuedSeqs] using this.2⟩
      rw [ih (setSequenceValue h s v) hqs.2]
      simp [setSequenceValue, hqs.1]

theorem foldl_ancestors_untouched (null : α) (ops : List (HOp α)) (h : Hierarchy α)
    (q : List α) (hq : ∀ s ∈ addedSeqs ops, q ∉ directDescendants null s) :
    (ops.foldl (stepOp null) h).ancestors q = h.ancestors q := by
  induction ops generalizing h with
  | nil => rfl
  | cons op rest ih =>
    rw [List.foldl_cons]
    simp only [stepOp]
    cases op with
    | setVal s v =>
      exact ih (setSequenceValue h s v) (by simpa [addedSeqs] using hq)
    | add s =>
      have hs : q ∉ directDescendants null s := by
        apply hq
        simp [addedSeqs]
      have hrest : ∀ u ∈ addedSeqs rest, q ∉ directDescendants null u := by
        intro u hu
        apply hq
        simp [addedSeqs]
        exact Or.inr (by simpa [addedSeqs] using hu)
      rw [ih (addSequence null h s) hrest, addSequence_ancestors_apply, if_neg hs]

theorem foldl_levels_untouched (null : α) (ops : List (HOp α)) (h : Hierarchy α)
    (l : ℕ) (hl : ∀ s ∈ addedSeqs ops, countNonNull null s ≠ l) :
    (ops.foldl (stepOp null) h).levels l = h.levels l := by
  induction ops generalizing h with
  | nil => rfl
  | cons op rest ih =>
    rw [List.foldl_cons]
    simp only [stepOp]
    cases op with
    | setVal s v =>
      exact ih (setSequenceValue h s v) (by simpa [addedSeqs] using hl)
    | add s =>
      have hs : countNonNull null s ≠ l := by
        apply hl
        simp [addedSeqs]
      have hrest : ∀ u ∈ addedSeqs rest, countNonNull null u ≠ l := by
        intro u hu
        apply hl
        simp [addedSeqs]
        exact Or.inr (by simpa [addedSeqs] using hu)
      rw [ih (addSequence null h s) hrest, addSequence_levels_apply,
        if_neg (fun hcon => hs hcon.symm)]

/-- Claim C10 is false as stated: after adding only `[1]` (null element
`0`), the sequence `[0]` has never been added, yet `get_ancestors([0])`
is non-empty — `add_sequence([1])` registered `[1]` as an ancestor of
its direct descendant `[0]`.  Only keys absent from the `ancestors`
defaultdict give back the empty set. -/
theorem unknownSequence_counterexample :
    [0] ∉ addedSeqs [HOp.add ([1] : List ℕ)] ∧
    getAncestors (runOps 0 [HOp.add [1]]) [0] ≠ [] := by decide

/-- Claim C10 amended: the query operations never raise (the underlying
maps are total with empty defaults), and for a sequence `q` that was
never added, never given a value, and is not a direct descendant of any
added sequence, `get_descendants(q)` and `get_ancestors(q)` return the
empty set and `get_sequence_value(q)` returns `None`; a level at which
no added sequence sits is empty.  (Without the direct-descendant
proviso, `get_ancestors` of a never-added sequence can be non-empty.) -/
theorem unknownSequence_queries_default (null : α) (ops : List (HOp α)) (q : List α) (l : ℕ)
    (hq : q ∉ addedSeqs ops) (hv : q ∉ valuedSeqs ops)
    (hanc : ∀ s ∈ addedSeqs ops, q ∉ directDescendants null s)
    (hl : ∀ s ∈ addedSeqs ops, countNonNull null s ≠ l) :
    getDescendants (runOps null ops) q = [] ∧
    getAncestors (runOps null ops) q = [] ∧
    getSequenceValue (runOps null ops) q = none ∧
    getSequencesByLevel (runOps null ops) l = [] := by
  refine ⟨?_, ?_, ?_, ?_⟩
  · exact foldl_descendants_untouched null ops (Hierarchy.empty α) q hq
  · exact foldl_ancestors_untouched null ops (Hierarchy.empty α) q hanc
  · exact foldl_values_untouched null ops (Hierarchy.empty α) q hv
  · exact foldl_levels_untouched null ops (Hierarchy.empty α) l hl

/-- Witness for the amended C10: after adding `[1]` and recording a
value for it, the unrelated sequence `[2, 2]` (never added, never
valued, not a direct descendant of `[1]`) reads back empty relations, no
value, and level 2 is unpopulated. -/
theorem unknownSequence_queries_default_witness :
    getDescendants (runOps 0 [HOp.add [1], HOp.setVal [1] 5]) [2, 2] = [] ∧
    getAncestors (runOps 0 [HOp.add [1], HOp.setVal [1] 5]) [2, 2] = [] ∧
    getSequenceValue (runOps 0 [HOp.add [1], HOp.setVal [1] 5]) [2, 2] = none ∧
    getSequencesByLevel (runOps 0 [HOp.add [1], HOp.setVal [1] 5]) 2 = [] :=
  unknownSequence_queries_default 0 [HOp.add [1], HOp.setVal [1] 5] [2, 2] 2
    (by decide) (by decide) (by decide) (by decide)

/-! ## Claim C1 -/

theorem all_elus_iff (descs : List (List α)) (elus : List α → Option ℚ)
    (P : ℚ → Prop) [DecidablePred P] :
    (descs.all (fun d =>
      match elus d with
      | none => true
      | some t => decide (P t)) = true) ↔ ∀ t ∈ descs.filterMap elus, P t := by
  induction descs with
  | nil => simp
  | cons d rest ih =>
    cases hd : elus d <;>
      simp [List.all_cons, hd, ih, List.filterMap_cons]

theorem codeValid_eq_claimValid (cfg : SGPPMConfig) (ymax maxDesc : ℚ) (lvl : ℕ)
    (descs : List (List α)) (elus : List α → Option ℚ) (p : SPeak)
    (hlvl : lvl = 0 → descs = []) :
    codeValidPeak cfg ymax maxDesc lvl descs elus p =
      decide (claimValidPeak cfg ymax maxDesc lvl (descs.filterMap elus) p) := by
  unfold codeValidPeak
  by_cases h1 : p.height < cfg.height_threshold
  · simp [h1, claimValidPeak, not_le.mpr h1]
  · by_cases h2 : p.height < ymax * cfg.pick_rel_height
    · have h2n : ¬ cfg.pick_rel_height * ymax ≤ p.height := by
        rw [mul_comm]; exact not_le.mpr h2
      simp [h1, h2, claimValidPeak, h2n]
    · have h1le : cfg.height_threshold ≤ p.height := not_lt.mp h1
      have h2le : cfg.pick_rel_height * ymax ≤ p.height := by
        rw [mul_comm]; exact not_lt.mp h2
      rcases Nat.eq_zero_or_pos lvl with hl0 | hlpos
      · have hdescs := hlvl hl0
        subst hl0
        simp [h1, h2, claimValidPeak, h1le, h2le, hdescs]
      · by_cases h3 : p.height ≤ maxDesc
        · have : lvl > 0 ∧ p.height ≤ maxDesc := ⟨hlpos, h3⟩
          simp only [h1, h2, if_false, if_pos this]
          have : ¬ claimValidPeak cfg ymax maxDesc lvl (descs.filterMap elus) p := by
            intro hc
            exact absurd (hc.2.2 hlpos).1 (not_lt.mpr h3)
          simp [this]
        · have hno : ¬ (lvl > 0 ∧ p.height ≤ maxDesc) := fun hc => h3 hc.2
          simp only [h1, h2, if_false, if_neg hno]
          have hiff := all_elus_iff descs elus
            (fun t => p.time > t + cfg.peak_time_threshold)
          by_cases hall : (descs.all (fun d =>
              match elus d with
              | none => true
              | some t => decide (p.time > t + cfg.peak_time_threshold))) = true
          · rw [hall]
            have hc : claimValidPeak cfg ymax maxDesc lvl (descs.filterMap elus) p :=
              ⟨h1le, h2le, fun _ => ⟨not_le.mp h3, fun t ht => hiff.mp hall t ht⟩⟩
            simp [hc]
          · rw [Bool.not_eq_true] at hall
            rw [hall]
            have hnc : ¬ claimValidPeak cfg ymax maxDesc lvl (descs.filterMap elus) p := by
              intro hc
              have htimes := (hc.2.2 hlpos).2
              exact absurd (hiff.mpr (fun t ht => htimes t ht)) (by simp [hall])
            simp [hnc]

/-- Claim C1 (hierarchical peak selection): for every chromatogram whose
sequence has no stored descendants at level 0 (as the hierarchy
guarantees), `_hierarchical_peak_selection` assigns as picked peak
exactly the claim's choice: among the detected candidates that clear the
absolute height threshold, clear `pick_rel_height` times the maximum
corrected intensity, and — when the sequence's level is positive —
strictly exceed the maximum recorded descendant intensity and elute
strictly after every recorded descendant elution time plus the
separation threshold, the latest-eluting one (with `None` when no
candidate survives, and the field untouched when no peaks were
detected). -/
theorem hierarchical_selection_claim (cfg : SGPPMConfig) (null : α) (h : Hierarchy α)
    (elus intens : List α → Option ℚ) (c : Chromatogram α)
    (hlvl : countNonNull null c.buildingBlocks = 0 → h.descendants c.buildingBlocks = []) :
    (hierarchicalPeakSelection cfg null h elus intens c).pickedPeak =
      if c.peaks = [] then c.pickedPeak else claimPick cfg null h elus intens c := by
  by_cases hpk : c.peaks = []
  · simp [hierarchicalPeakSelection, hpk]
  · rw [if_neg hpk]
    unfold hierarchicalPeakSelection claimPick
    rw [if_neg hpk]
    simp only
    congr 1
    exact List.filter_congr (fun p _ =>
      codeValid_eq_claimValid cfg _ _ _ _ elus p (fun h0 => hlvl h0))

/-- Witness for C1: the spec's hierarchical-ordering scenario — level-2
sequence with descendants eluting at `t = 3` and `t = 4`, separation
threshold `1/2`, candidate peaks at `t = 2` and `t = 6`; the peak at
`t = 2` is rejected (it precedes `max(3,4) + 1/2`) and the peak at
`t = 6` is picked. -/
theorem hierarchical_selection_claim_witness :
    (hierarchicalPeakSelection scenarioConfig 0 scenarioHierarchy scenarioElus
      scenarioIntens scenarioChrom).pickedPeak = some ⟨6, 5⟩ := by
  have hmain := hierarchical_selection_claim scenarioConfig 0 scenarioHierarchy scenarioElus
    scenarioIntens scenarioChrom (by decide)
  rw [hmain]
  have hpeaks : scenarioChrom.peaks = [⟨2, 5⟩, ⟨6, 5⟩] := rfl
  norm_num [claimPick, scenarioHierarchy, scenarioElus, scenarioIntens, scenarioChrom,
    scenarioConfig, runOps, stepOp, addSequence, Hierarchy.empty, directDescendants,
    countNonNull, getLevel, List.insert, List.range_succ, List.filterMap_cons, maxD0,
    List.max?, npMax, latestPeak, claimValidPeak, List.filter_cons]
  exact fun hcon => absurd hcon (by simp)

/-! ## Claim C4 -/

theorem zeroBefore_length (n : ℕ) (l : List ℚ) : (zeroBefore n l).length = l.length := by
  induction l generalizing n with
  | nil => cases n <;> rfl
  | cons a t ih =>
    cases n with
    | zero => rfl
    | succ m => simp [zeroBefore, ih]

theorem zeroBefore_getD (n : ℕ) (l : List ℚ) (i : ℕ) :
    (zeroBefore n l).getD i 0 = if i < n ∧ i < l.length then 0 else l.getD i 0 := by
  induction l generalizing n i with
  | nil => cases n <;> simp [zeroBefore]
  | cons a t ih =>
    cases n with
    | zero => simp [zeroBefore]
    | succ m =>
      cases i with
      | zero => simp [zeroBefore]
      | succ j => simpa [zeroBefore, Nat.succ_lt_succ_iff] using ih m j

/-- Claim C4 is false as stated: `_apply_hierarchy_constraints` zeroes
the stored corrected intensity in place and never restores it, so the
corrected array differs before and after constraint application on this
concrete chromatogram (corrected `[5, 7]` becomes `[0, 7]` once the
descendant eluting at `t = 1` with separation threshold `1/2` masks the
sample at `t = 0`). -/
theorem searchMask_counterexample :
    (applyConstraintsOne scenarioConfig maskHierarchy maskElus maskChrom).yCorrected ≠
      maskChrom.yCorrected := by
  have hval : (applyConstraintsOne scenarioConfig maskHierarchy maskElus maskChrom).yCorrected
      = some [0, 7] := by
    norm_num [applyConstraintsOne, maskHierarchy, maskElus, maskChrom, runOps, stepOp,
      addSequence, Hierarchy.empty, directDescendants, countNonNull, searchsorted, zeroBefore,
      scenarioConfig, List.takeWhile, List.insert, List.range_succ, List.filterMap_cons,
      List.max?]
  rw [hval]
  simp [maskChrom]

/-- Claim C4 amended: peak-search restriction never modifies the stored
raw intensity, and the mask-based variant (`_create_search_masks`)
stores the mask separately leaving the corrected intensity unchanged as
well; the zeroing variant (`_apply_hierarchy_constraints`), however,
overwrites the stored corrected intensity — it zeroes every sample
strictly before the index of the latest recorded descendant elution time
plus the separation threshold and keeps the remaining samples, with no
restoration afterwards (it is the identity only when no descendant has a
recorded time). -/
theorem searchMask_frame_amended (cfg : SGPPMConfig) (h : Hierarchy α)
    (elus : List α → Option ℚ) (c : Chromatogram α) :
    (applyConstraintsOne cfg h elus c).y = c.y ∧
    (createSearchMaskOne cfg h elus c).y = c.y ∧
    (createSearchMaskOne cfg h elus c).yCorrected = c.yCorrected ∧
    (((h.descendants c.buildingBlocks).filterMap elus) = [] →
      applyConstraintsOne cfg h elus c = c) ∧
    (∀ yc m, c.yCorrected = some yc →
      ((h.descendants c.buildingBlocks).filterMap elus).max? = some m →
      ∃ yc2, (applyConstraintsOne cfg h elus c).yCorrected = some yc2 ∧
        yc2.length = yc.length ∧
        (∀ i, i < searchsorted c.x (m + cfg.peak_time_threshold) → i < yc.length →
          yc2.getD i 0 = 0) ∧
        (∀ i, searchsorted c.x (m + cfg.peak_time_threshold) ≤ i →
          yc2.getD i 0 = yc.getD i 0)) := by
  refine ⟨?_, ?_, ?_, ?_, ?_⟩
  · cases hmx : ((h.descendants c.buildingBlocks).filterMap elus).max? with
    | none => simp [applyConstraintsOne, hmx]
    | some m => cases hyc : c.yCorrected <;> simp [applyConstraintsOne, hmx, hyc]
  · cases hmx : ((h.descendants c.buildingBlocks).filterMap elus).max? <;>
      simp [createSearchMaskOne, hmx]
  · cases hmx : ((h.descendants c.buildingBlocks).filterMap elus).max? <;>
      simp [createSearchMaskOne, hmx]
  · intro hempty
    simp [applyConstraintsOne, hempty, List.max?]
  · intro yc m hyc hm
    refine ⟨zeroBefore (searchsorted c.x (m + cfg.peak_time_threshold)) yc, ?_, ?_, ?_, ?_⟩
    · simp [applyConstraintsOne, hm, hyc]
    · exact zeroBefore_length _ _
    · intro i hi hilen
      rw [zeroBefore_getD]
      simp [hi, hilen]
    · intro i hi
      rw [zeroBefore_getD]
      simp [Nat.not_lt_of_le hi]

/-- Witness for the amended C4 at the counterexample's input: the raw
axis survives, the mask variant changes nothing, and the zeroing variant
produces `[0, 7]` from `[5, 7]` (cutoff index `1`). -/
theorem searchMask_frame_amended_witness :
    (applyConstraintsOne scenarioConfig maskHierarchy maskElus maskChrom).y = maskChrom.y ∧
    (createSearchMaskOne scenarioConfig maskHierarchy maskElus maskChrom).yCorrected =
      maskChrom.yCorrected ∧
    ∃ yc2, (applyConstraintsOne scenarioConfig maskHierarchy maskElus maskChrom).yCorrected =
        some yc2 ∧ yc2.getD 0 0 = 0 ∧ yc2.getD 1 0 = 7 := by
  have hmax : ((maskHierarchy.descendants maskChrom.buildingBlocks).filterMap maskElus).max?
      = some 1 := by
    norm_num [maskHierarchy, maskElus, maskChrom, runOps, stepOp, addSequence, Hierarchy.empty,
      directDescendants, countNonNull, List.insert, List.range_succ, List.filterMap_cons,
      List.max?]
  have hss : searchsorted maskChrom.x (1 + scenarioConfig.peak_time_threshold) = 1 := by
    norm_num [searchsorted, maskChrom, scenarioConfig, List.takeWhile]
  obtain ⟨hy, _, hycm, _, hmain⟩ :=
    searchMask_frame_amended scenarioConfig maskHierarchy maskElus maskChrom
  obtain ⟨yc2, hval, hlen, hzero, hkeep⟩ := hmain [5, 7] 1 rfl hmax
  refine ⟨hy, hycm, yc2, hval, ?_, ?_⟩
  · exact hzero 0 (by rw [hss]; norm_num) (by norm_num)
  · have := hkeep 1 (by rw [hss])
    rw [this]
    norm_num

/-! ## Claim C6 -/

/-- Claim C6 (SWM baseline correction): `SWM.correct_baseline` succeeds
if and only if the window length is a positive odd integer, the signal
is non-empty, finite everywhere, and at least as long as the window, and
the correction leaves at least one non-zero point; in that case the
stored corrected signal keeps each original sample whose difference
against the sliding-window minimum of the padded signal is positive,
zeroes the rest, and compacts out the zeroed points — and the corrector
errors in exactly the complementary cases. -/
theorem swm_claim (cfg : SWMCfg) (y : List (Option ℚ)) :
    (swmCorrectBaseline cfg y).toOption = swmClaimed cfg y := by
  unfold swmCorrectBaseline swmClaimed
  by_cases h1 : cfg.window_length ≤ 0
  · rw [if_pos h1, if_neg (fun hc => absurd hc.1 (not_lt.mpr h1))]
    rfl
  · rw [if_neg h1]
    by_cases h2 : cfg.window_length % 2 = 0
    · have hodd : ¬ Odd cfg.window_length := by
        rw [Int.odd_iff]
        omega
      rw [if_pos h2, if_neg (fun hc => absurd hc.2.1 hodd)]
      rfl
    · have hodd : Odd cfg.window_length := by
        rw [Int.odd_iff]
        omega
      rw [if_neg h2]
      by_cases h3 : y.length = 0
      · have hnil : y = [] := List.length_eq_zero.mp h3
        rw [if_pos h3, if_neg (fun hc => absurd hnil hc.2.2.1)]
        rfl
      · rw [if_neg h3]
        by_cases h4 : y.all Option.isSome = true
        · have hfin : ∀ v ∈ y, v ≠ none := by
            intro v hv
            have := (List.all_eq_true.mp h4) v hv
            exact Option.isSome_iff_ne_none.mp this
          rw [if_neg (not_not_intro h4)]
          by_cases h5 : y.length < cfg.window_length.toNat
          · rw [if_pos h5, if_neg (fun hc => absurd hc.2.2.2.2.1 (not_le.mpr h5))]
            rfl
          · rw [if_neg h5]
            by_cases h6 : ((y.reduceOption.zip (slidingMin cfg.window_length.toNat
                (edgePad (cfg.window_length.toNat / 2) y.reduceOption))).map
                (fun pr => if pr.1 - pr.2 > 0 then pr.1 else 0)).all (fun v => v = 0)
            · rw [if_pos h6]
              have hnall : ¬ ∃ v ∈ ((y.reduceOption.zip (slidingMin cfg.window_length.toNat
                  (edgePad (cfg.window_length.toNat / 2) y.reduceOption))).map
                  (fun pr => if pr.1 - pr.2 > 0 then pr.1 else 0)), v ≠ 0 := by
                rintro ⟨v, hv, hvne⟩
                exact hvne (by simpa using (List.all_eq_true.mp h6) v hv)
              rw [if_neg (fun hc => absurd hc.2.2.2.2.2 hnall)]
              rfl
            · rw [if_neg h6]
              have hex : ∃ v ∈ ((y.reduceOption.zip (slidingMin cfg.window_length.toNat
                  (edgePad (cfg.window_length.toNat / 2) y.reduceOption))).map
                  (fun pr => if pr.1 - pr.2 > 0 then pr.1 else 0)), v ≠ 0 := by
                rw [List.all_eq_true] at h6
                push_neg at h6
                obtain ⟨v, hv, hvne⟩ := h6
                exact ⟨v, hv, by simpa using hvne⟩
              rw [if_pos ⟨not_le.mp h1, hodd, List.length_eq_zero.not.mp h3, hfin,
                not_lt.mp h5, hex⟩]
              rfl
        · have hex : ¬ ∀ v ∈ y, v ≠ none := by
            intro hall
            apply h4
            rw [List.all_eq_true]
            intro v hv
            exact Option.isSome_iff_ne_none.mpr (hall v hv)
          rw [if_pos h4, if_neg (fun hc => absurd hc.2.2.2.1 hex)]
          rfl

/-- Witness for C6 at concrete inputs: window `3` on the finite signal
`[1, 5, 1, 6, 1]` succeeds with compacted output `[5, 6]`, and the even
window `4` is rejected. -/
theorem swm_claim_witness :
    (swmCorrectBaseline ⟨3⟩ ([1, 5, 1, 6, 1].map some)).toOption = some [5, 6] ∧
    (swmCorrectBaseline ⟨4⟩ ([1, 5, 1].map some)).toOption = none := by
  constructor
  · rw [swm_claim]
    norm_num [swmClaimed, slidingMin, edgePad, minD0, List.range_succ, List.reduceOption,
      List.filterMap_cons, List.min?, Int.odd_iff, List.filter_cons,
      show ((3 : ℤ)).toNat = 3 from rfl, List.replicate, List.range_zero]
    intro hcon
    exact absurd (hcon (by simp) (by simp) (by simp) (by simp) (by simp)) (by simp)
  · rw [swm_claim]
    norm_num [swmClaimed, Int.odd_iff]

/-! ## Claim C7 -/

theorem detExp_eq_det : ∀ {n : ℕ} (M : Matrix (Fin n) (Fin n) ℚ), detExp M = M.det := by
  intro n
  induction n with
  | zero =>
    intro M
    rw [detExp, Matrix.det_fin_zero]
  | succ k ih =>
    intro M
    rw [detExp, Matrix.det_succ_column_zero]
    exact Finset.sum_congr rfl fun i _ => by rw [ih]

theorem adjExp_eq_adjugate {n : ℕ} (M : Matrix (Fin n) (Fin n) ℚ) :
    adjExp M = M.adjugate := by
  ext i j
  rw [Matrix.adjugate_apply]
  show detExp (M.updateRow j (Pi.single i 1)) = _
  rw [detExp_eq_det]

theorem solveLin_spec {n : ℕ} (Z : Matrix (Fin n) (Fin n) ℚ) (b z : Fin n → ℚ)
    (h : solveLin Z b = some z) : Z.mulVec z = b ∧ Z.det ≠ 0 := by
  unfold solveLin at h
  by_cases hd : detExp Z = 0
  · rw [if_pos hd] at h
    exact absurd h (by simp)
  · rw [if_neg hd] at h
    have hdet : Z.det ≠ 0 := by rwa [detExp_eq_det] at hd
    have hz : z = (detExp Z)⁻¹ • (adjExp Z).mulVec b := (Option.some.injEq _ _ ▸ h).symm
    subst hz
    refine ⟨?_, hdet⟩
    rw [detExp_eq_det, adjExp_eq_adjugate, Matrix.mulVec_smul, Matrix.mulVec_mulVec,
      Matrix.mul_adjugate, Matrix.smul_mulVec_assoc, Matrix.one_mulVec, smul_smul,
      inv_mul_cancel₀ hdet, one_smul]

theorem aalsIter_ok_some (cfg : AALSCfg) {n : ℕ} (yv : Fin n → ℚ) :
    ∀ (k : ℕ) (w : Fin n → ℚ) (z0 : Option (Fin n → ℚ)) (wfin : Fin n → ℚ)
      (z : Fin n → ℚ),
      aalsIter cfg yv k w z0 = Except.ok (wfin, some z) →
      (k = 0 ∧ wfin = w ∧ z0 = some z) ∨
      (∃ wl, solveLin (aalsSystem cfg.lam wl) (fun i => wl i * yv i) = some z ∧
        wfin = fun i => if yv i > z i then cfg.p else 1 - cfg.p) := by
  intro k
  induction k with
  | zero =>
    intro w z0 wfin z h
    rw [aalsIter] at h
    simp only [Except.ok.injEq, Prod.mk.injEq] at h
    exact Or.inl ⟨rfl, h.1.symm, h.2⟩
  | succ m ih =>
    intro w z0 wfin z h
    rw [aalsIter] at h
    cases hs : solveLin (aalsSystem cfg.lam w) (fun i => w i * yv i) with
    | none => rw [hs] at h; exact absurd h (by simp)
    | some z1 =>
      rw [hs] at h
      rcases ih _ _ _ _ h with ⟨hm, hwf, hz0⟩ | ⟨wl, hsl, hwf⟩
      · have hz1 : z1 = z := by
          have := hz0
          simpa using this
        subst hz1
        exact Or.inr ⟨w, hs, hwf⟩
      · exact Or.inr ⟨wl, hsl, hwf⟩

theorem aalsIter_error_linAlg (cfg : AALSCfg) {n : ℕ} (yv : Fin n → ℚ) :
    ∀ (k : ℕ) (w : Fin n → ℚ) (z0 : Option (Fin n → ℚ)) (e : AALSError),
      aalsIter cfg yv k w z0 = Except.error e → e = AALSError.linAlg := by
  intro k
  induction k with
  | zero =>
    intro w z0 e h
    rw [aalsIter] at h
    exact absurd h (by simp)
  | succ m ih =>
    intro w z0 e h
    rw [aalsIter] at h
    cases hs : solveLin (aalsSystem cfg.lam w) (fun i => w i * yv i) with
    | none =>
      rw [hs] at h
      simpa using h.symm
    | some z1 =>
      rw [hs] at h
      exact ih _ _ _ h

theorem aalsIter_first_singular (cfg : AALSCfg) {n : ℕ} (yv : Fin n → ℚ)
    (k : ℕ) (hk : 0 < k) (w : Fin n → ℚ) (z0 : Option (Fin n → ℚ))
    (hsing : detExp (aalsSystem cfg.lam w) = 0) :
    aalsIter cfg yv k w z0 = Except.error AALSError.linAlg := by
  cases k with
  | zero => omega
  | succ m =>
    rw [aalsIter]
    have : solveLin (aalsSystem cfg.lam w) (fun i => w i * yv i) = none := by
      unfold solveLin
      rw [if_pos hsing]
    rw [this]

theorem all_isSome_of_none_not_mem (y : List (Option ℚ)) (h : none ∉ y) :
    y.all Option.isSome = true := by
  rw [List.all_eq_true]
  intro v hv
  cases v with
  | none => exact absurd hv h
  | some q => rfl

theorem none_mem_of_not_all_isSome (y : List (Option ℚ))
    (h : ¬ y.all Option.isSome = true) : none ∈ y := by
  rw [List.all_eq_true] at h
  push_neg at h
  obtain ⟨v, hv, hns⟩ := h
  cases v with
  | none => exact hv
  | some q => exact absurd rfl hns

theorem reduceOption_length_of_all (y : List (Option ℚ))
    (h : y.all Option.isSome = true) : y.reduceOption.length = y.length := by
  induction y with
  | nil => rfl
  | cons v t ih =>
    rw [List.all_cons, Bool.and_eq_true] at h
    cases v with
    | none => exact absurd h.1 (by simp)
    | some q =>
      rw [List.reduceOption_cons_of_some]
      simp [ih h.2]

/-- Claim C7 (AALS baseline correction): the corrector fails with an
input-validation error exactly when the signal contains a non-finite
value or has fewer than 3 points; a success requires at least one
iteration and returns `y - z` where `z` is the solution of the final
iteration's weighted system `(W + lam·DᵀD) z = W y` (a genuine solution
of a nonsingular system) whose weights were produced by the
`p` / `1 - p` reweighting rule against `z`; and a singular system (here:
already in the first iteration) is surfaced as the linear-algebra error
rather than silently continued. -/
theorem aals_claim (cfg : AALSCfg) (y : List (Option ℚ)) :
    ((∃ e, aalsCorrectBaseline cfg y = Except.error e ∧
        (e = AALSError.nonFinite ∨ e = AALSError.tooShort)) ↔
      (none ∈ y ∨ y.length < 3)) ∧
    (∀ r, aalsCorrectBaseline cfg y = Except.ok r →
      0 < cfg.niter ∧
      ∃ (w z : Fin y.reduceOption.length → ℚ),
        (aalsSystem cfg.lam w).mulVec z = (fun i => w i * y.reduceOption.get i) ∧
        (aalsSystem cfg.lam w).det ≠ 0 ∧
        aalsIter cfg (fun i => y.reduceOption.get i) cfg.niter (fun _ => 1) none =
          Except.ok ((fun i => if y.reduceOption.get i > z i
            then cfg.p else 1 - cfg.p), some z) ∧
        r = List.ofFn (fun i => y.reduceOption.get i - z i)) ∧
    (none ∉ y → 3 ≤ y.length → 0 < cfg.niter →
      detExp (aalsSystem cfg.lam (fun _ : Fin y.reduceOption.length => 1)) = 0 →
      aalsCorrectBaseline cfg y = Except.error AALSError.linAlg) := by
  refine ⟨⟨?_, ?_⟩, ?_, ?_⟩
  · rintro ⟨e, herr, hkind⟩
    by_contra hcon
    push_neg at hcon
    obtain ⟨hnm, hlen⟩ := hcon
    have hall := all_isSome_of_none_not_mem y hnm
    have hredlen := reduceOption_length_of_all y hall
    unfold aalsCorrectBaseline at herr
    rw [if_neg (not_not_intro hall), if_neg (by omega)] at herr
    rcases hiter : aalsIter cfg (fun i : Fin y.reduceOption.length => y.reduceOption.get i)
        cfg.niter (fun _ => 1) none with e2 | ⟨w2, z2⟩
    · rw [hiter] at herr
      have := aalsIter_error_linAlg cfg _ _ _ _ _ hiter
      subst this
      simp only [Except.error.injEq] at herr
      rcases hkind with h | h <;> simp [← herr] at h
    · rw [hiter] at herr
      cases z2 with
      | none =>
        simp only [Except.error.injEq] at herr
        rcases hkind with h | h <;> simp [← herr] at h
      | some zz => exact absurd herr (by simp)
  · intro hor
    by_cases hnm : none ∈ y
    · refine ⟨AALSError.nonFinite, ?_, Or.inl rfl⟩
      have : ¬ y.all Option.isSome = true := by
        intro hall
        have := (List.all_eq_true.mp hall) none hnm
        simp at this
      unfold aalsCorrectBaseline
      rw [if_pos this]
    · have hlen : y.length < 3 := by tauto
      have hall := all_isSome_of_none_not_mem y hnm
      have hredlen := reduceOption_length_of_all y hall
      refine ⟨AALSError.tooShort, ?_, Or.inr rfl⟩
      unfold aalsCorrectBaseline
      rw [if_neg (not_not_intro hall), if_pos (by omega)]
  · intro r hok
    unfold aalsCorrectBaseline at hok
    by_cases hall : y.all Option.isSome = true
    swap
    · rw [if_pos hall] at hok
      exact absurd hok (by simp)
    rw [if_neg (not_not_intro hall)] at hok
    by_cases hlen : y.reduceOption.length < 3
    · rw [if_pos hlen] at hok
      exact absurd hok (by simp)
    rw [if_neg hlen] at hok
    rcases hiter : aalsIter cfg (fun i : Fin y.reduceOption.length => y.reduceOption.get i)
        cfg.niter (fun _ => 1) none with e2 | ⟨w2, z2⟩
    · rw [hiter] at hok
      exact absurd hok (by simp)
    · rw [hiter] at hok
      cases z2 with
      | none => exact absurd hok (by simp)
      | some zz =>
        have hr : r = List.ofFn (fun i => y.reduceOption.get i - zz i) := by
          simpa using hok.symm
        have hpos : 0 < cfg.niter := by
          rcases Nat.eq_zero_or_pos cfg.niter with h0 | hp
          · rw [h0, aalsIter] at hiter
            exact absurd hiter (by simp)
          · exact hp
        rcases aalsIter_ok_some cfg _ cfg.niter _ _ _ _ hiter with ⟨_, _, hz0⟩ | hmain
        · exact absurd hz0 (by simp)
        · obtain ⟨wl, hsl, hwf⟩ := hmain
          obtain ⟨hsys, hdet⟩ := solveLin_spec _ _ _ hsl
          subst hwf
          exact ⟨hpos, wl, zz, hsys, hdet, rfl, hr⟩
  · intro hnm hlen hpos hsing
    have hall := all_isSome_of_none_not_mem y hnm
    have hredlen := reduceOption_length_of_all y hall
    unfold aalsCorrectBaseline
    rw [if_neg (not_not_intro hall), if_neg (by omega),
      aalsIter_first_singular cfg _ cfg.niter hpos _ none hsing]

/-- Witness for C7: a non-finite sample is reported as a validation
error, and with `lam = -1/6` the very first system `I + lam·DᵀD` on a
3-point signal is singular and surfaced as the linear-algebra error. -/
theorem aals_claim_witness :
    (∃ e, aalsCorrectBaseline ⟨100, 1 / 10, 10⟩ [none] = Except.error e ∧
      (e = AALSError.nonFinite ∨ e = AALSError.tooShort)) ∧
    aalsCorrectBaseline ⟨-1 / 6, 1 / 10, 1⟩ [some 1, some 2, some 3] =
      Except.error AALSError.linAlg := by
  constructor
  · exact (aals_claim ⟨100, 1 / 10, 10⟩ [none]).1.mpr (Or.inl (by simp))
  · refine (aals_claim ⟨-1 / 6, 1 / 10, 1⟩ [some 1, some 2, some 3]).2.2
      (by simp) (by norm_num) (by norm_num) ?_
    show detExp (aalsSystem (-1 / 6) (fun _ : Fin 3 => (1 : ℚ))) = 0
    simp +decide only [detExp, aalsSystem, secondDiff, Matrix.diagonal, Matrix.transpose,
      Matrix.mul_apply, Fin.sum_univ_succ, Matrix.submatrix, Matrix.add_apply,
      Matrix.smul_apply, Matrix.of_apply, Fin.succAbove, Matrix.transpose_apply]
    norm_num

/-! ## Claim C9 -/

theorem exceptBind_ok {ε β γ : Type} (v : β) (f : β → Except ε γ) :
    ((Except.ok v : Except ε β) >>= f) = f v := rfl

theorem exceptBind_error {ε β γ : Type} (e : ε) (f : β → Except ε γ) :
    ((Except.error e : Except ε β) >>= f) = Except.error e := rfl

theorem pyGet_nat (y : List ℚ) (i : ℕ) (hi : i < y.length) :
    pyGet y i = Except.ok (y.getD i 0) := by
  unfold pyGet
  rw [if_pos ⟨Int.ofNat_nonneg i, by exact_mod_cast hi⟩]
  simp

theorem pyGet_neg_one (y : List ℚ) (hy : 1 ≤ y.length) :
    pyGet y (-1) = Except.ok (y.getD (y.length - 1) 0) := by
  unfold pyGet
  rw [if_neg (by omega), if_pos (by omega)]
  have harg : ((-1 : ℤ) + y.length).toNat = y.length - 1 := by omega
  rw [harg]

theorem pyGet_big (y : List ℚ) (i : ℤ) (hi : (y.length : ℤ) ≤ i) :
    pyGet y i = Except.error IdxErr.indexOutOfRange := by
  unfold pyGet
  rw [if_neg (by omega), if_neg (by omega)]

theorem leftWalk_sound (y : List ℚ) :
    ∀ l, l < y.length →
    (l + 1 < y.length ∨ l = 0 ∨ ¬ (y.getD l 0 ≤ y.getD (l - 1) 0)) →
    ∃ lb, leftWalk y l = Except.ok lb ∧ lb ≤ l ∧
      (lb = 0 ∨ (y.getD lb 0 ≤ y.getD (lb - 1) 0 ∧ y.getD lb 0 ≤ y.getD (lb + 1) 0)) := by
  intro l
  induction l with
  | zero => intro _ _; exact ⟨0, rfl, le_refl 0, Or.inl rfl⟩
  | succ m ih =>
    intro hm hsafe
    have hmlt : m < y.length := Nat.lt_of_succ_lt hm
    rw [leftWalk, pyGet_nat y (m + 1) hm, pyGet_nat y m hmlt]
    simp only [exceptBind_ok]
    by_cases hba : y.getD (m + 1) 0 ≤ y.getD m 0
    · have hlt2 : m + 2 < y.length := by
        rcases hsafe with hlt | hz | hns
        · omega
        · omega
        · exact absurd (by simpa using hba) hns
      rw [if_pos hba, pyGet_nat y (m + 2) hlt2]
      simp only [exceptBind_ok]
      by_cases hbc : y.getD (m + 1) 0 ≤ y.getD (m + 2) 0
      · rw [if_pos hbc]
        exact ⟨m + 1, rfl, le_refl _,
          Or.inr ⟨by simpa using hba, by simpa using hbc⟩⟩
      · rw [if_neg hbc]
        obtain ⟨lb, heq, hle, hmin⟩ := ih hmlt (Or.inl hm)
        exact ⟨lb, heq, Nat.le_succ_of_le hle, hmin⟩
    · rw [if_neg hba]
      obtain ⟨lb, heq, hle, hmin⟩ := ih hmlt (Or.inl hm)
      exact ⟨lb, heq, Nat.le_succ_of_le hle, hmin⟩

theorem rightWalkAux_sound (y : List ℚ) :
    ∀ fuel r, fuel = y.length - 1 - r → r < y.length →
    ∃ rb, rightWalkAux y fuel r = Except.ok rb ∧ r ≤ rb ∧ rb < y.length ∧
      (rb = 0 ∨ rb = y.length - 1 ∨
        (y.getD rb 0 ≤ y.getD (rb - 1) 0 ∧ y.getD rb 0 ≤ y.getD (rb + 1) 0)) := by
  intro fuel
  induction fuel with
  | zero =>
    intro r hf hr
    refine ⟨r, rfl, le_refl r, hr, Or.inr (Or.inl ?_)⟩
    omega
  | succ k ih =>
    intro r hf hr
    have hrlt : r + 1 < y.length := by omega
    rw [rightWalkAux, pyGet_nat y r hr]
    simp only [exceptBind_ok]
    have ha : ∃ av, pyGet y ((r : ℤ) - 1) = Except.ok av ∧
        (0 < r → av = y.getD (r - 1) 0) := by
      rcases Nat.eq_zero_or_pos r with rfl | hrpos
      · refine ⟨y.getD (y.length - 1) 0, ?_, by omega⟩
        simpa using pyGet_neg_one y (by omega)
      · refine ⟨y.getD (r - 1) 0, ?_, fun _ => rfl⟩
        have : ((r : ℤ) - 1) = ((r - 1 : ℕ) : ℤ) := by omega
        rw [this]
        exact pyGet_nat y (r - 1) (by omega)
    obtain ⟨av, hav, havval⟩ := ha
    rw [hav]
    simp only [exceptBind_ok]
    by_cases hba : y.getD r 0 ≤ av
    · rw [if_pos hba, pyGet_nat y (r + 1) hrlt]
      simp only [exceptBind_ok]
      by_cases hbc : y.getD r 0 ≤ y.getD (r + 1) 0
      · rw [if_pos hbc]
        refine ⟨r, rfl, le_refl r, hr, ?_⟩
        rcases Nat.eq_zero_or_pos r with rfl | hrpos
        · exact Or.inl rfl
        · exact Or.inr (Or.inr ⟨by rw [← havval hrpos]; exact hba, hbc⟩)
      · rw [if_neg hbc]
        obtain ⟨rb, heq, hle, hlt, hmin⟩ := ih (r + 1) (by omega) hrlt
        exact ⟨rb, heq, Nat.le_of_succ_le hle, hlt, hmin⟩
    · rw [if_neg hba]
      obtain ⟨rb, heq, hle, hlt, hmin⟩ := ih (r + 1) (by omega) hrlt
      exact ⟨rb, heq, Nat.le_of_succ_le hle, hlt, hmin⟩

/-- Claim C9 is false as stated: on the trace `y = [1, 0]` with apex
index `1` (a valid index, `0 ≤ 1 < len(y)`), the leftward boundary walk
evaluates `y[left + 1] = y[2]`, an out-of-range access (`IndexError`),
because the walk sits at the last sample and `y[1] ≤ y[0]` makes Python
evaluate the second conjunct. -/
theorem leftWalk_oob (y : List ℚ) (m : ℕ) (hlen : m + 2 = y.length)
    (hba : y.getD (m + 1) 0 ≤ y.getD m 0) :
    leftWalk y (m + 1) = Except.error IdxErr.indexOutOfRange := by
  rw [leftWalk, pyGet_nat y (m + 1) (by omega), pyGet_nat y m (by omega)]
  simp only [exceptBind_ok]
  rw [if_pos hba, pyGet_big y ((m + 2 : ℕ) : ℤ) (by omega)]
  rfl

theorem peak_boundary_counterexample :
    calculatePeakBoundaries [0, 1] [1, 0] (basePeak 1 0 0) =
      Except.error IdxErr.indexOutOfRange := by
  have h := leftWalk_oob [1, 0] 0 rfl (by norm_num)
  show (leftWalk [1, 0] (0 + 1) >>= _) = _
  rw [h]
  rfl

/-- Claim C9 amended: for every trace `y` and apex index `i` with
`0 ≤ i < len(y)`, provided the apex is not simultaneously the last
index, positive, and weakly below its left neighbour (in that excluded
case the left walk reads `y[len(y)]`, an out-of-range access), the
boundary search terminates with `left_base_index ≤ i ≤
right_base_index < len(y)` and each boundary sample is a local minimum
(`y[b] ≤ y[b-1]` and `y[b] ≤ y[b+1]`) or a trace edge (index `0` or
`len(y) - 1`). -/
theorem peak_boundary_soundness (x y : List ℚ) (pk : APeak)
    (hidx : pk.index < y.length)
    (hsafe : pk.index + 1 < y.length ∨ pk.index = 0 ∨
      ¬ (y.getD pk.index 0 ≤ y.getD (pk.index - 1) 0)) :
    ∃ pk2, calculatePeakBoundaries x y pk = Except.ok pk2 ∧
      pk2.left_base_index ≤ pk.index ∧ pk.index ≤ pk2.right_base_index ∧
      pk2.right_base_index < y.length ∧
      (pk2.left_base_index = 0 ∨
        (y.getD pk2.left_base_index 0 ≤ y.getD (pk2.left_base_index - 1) 0 ∧
         y.getD pk2.left_base_index 0 ≤ y.getD (pk2.left_base_index + 1) 0)) ∧
      (pk2.right_base_index = 0 ∨ pk2.right_base_index = y.length - 1 ∨
        (y.getD pk2.right_base_index 0 ≤ y.getD (pk2.right_base_index - 1) 0 ∧
         y.getD pk2.right_base_index 0 ≤ y.getD (pk2.right_base_index + 1) 0)) := by
  obtain ⟨lb, hleq, hlle, hlmin⟩ := leftWalk_sound y pk.index hidx hsafe
  obtain ⟨rb, hreq, hrle, hrlt, hrmin⟩ :=
    rightWalkAux_sound y (y.length - 1 - pk.index) pk.index rfl hidx
  refine ⟨{ pk with
              left_base_index := lb, right_base_index := rb,
              left_base_time := x.getD lb 0, right_base_time := x.getD rb 0 },
    ?_, hlle, hrle, hrlt, hlmin, hrmin⟩
  show (leftWalk y pk.index >>= _) = _
  rw [hleq]
  simp only [exceptBind_ok]
  show (rightWalk y pk.index >>= _) = _
  rw [rightWalk, hreq]
  rfl

/-- Witness for the amended C9: on `y = [3, 1, 5, 2, 4]` with apex
index `2`, the boundary search succeeds with the claimed ordering and
boundary-sample properties. -/
theorem peak_boundary_soundness_witness :
    ∃ pk2, calculatePeakBoundaries [0, 1, 2, 3, 4] [3, 1, 5, 2, 4] (basePeak 2 2 5) =
        Except.ok pk2 ∧
      pk2.left_base_index ≤ 2 ∧ 2 ≤ pk2.right_base_index ∧
      pk2.right_base_index < 5 ∧
      (pk2.left_base_index = 0 ∨
        ([3, 1, 5, 2, 4].getD pk2.left_base_index (0 : ℚ) ≤
            [3, 1, 5, 2, 4].getD (pk2.left_base_index - 1) 0 ∧
         [3, 1, 5, 2, 4].getD pk2.left_base_index (0 : ℚ) ≤
            [3, 1, 5, 2, 4].getD (pk2.left_base_index + 1) 0)) ∧
      (pk2.right_base_index = 0 ∨ pk2.right_base_index = 4 ∨
        ([3, 1, 5, 2, 4].getD pk2.right_base_index (0 : ℚ) ≤
            [3, 1, 5, 2, 4].getD (pk2.right_base_index - 1) 0 ∧
         [3, 1, 5, 2, 4].getD pk2.right_base_index (0 : ℚ) ≤
            [3, 1, 5, 2, 4].getD (pk2.right_base_index + 1) 0)) :=
  peak_boundary_soundness [0, 1, 2, 3, 4] [3, 1, 5, 2, 4] (basePeak 2 2 5)
    (by decide) (Or.inl (by decide))

/-! ## Claim C8 -/

/-- Claim C8 (Gaussian-fit failure recovery): for every analyzed peak
and every outcome of the external fitter, `_calculate_gaussian_fit`
returns normally (no exception propagates out of the `try/except`), and
whenever `curve_fit` fails with the caught runtime/value error the
function records the worst-case residual `1.0` for that peak and leaves
every other peak field unchanged, so the peak remains a usable candidate
and the remaining analysis steps run. -/
theorem gaussianFit_recovers_from_failure
    (curveFitO : FitInput → Except FitErr (ℚ × ℚ × ℚ))
    (gaussO : ℚ × ℚ × ℚ → ℚ → ℚ) (sqrtO : ℚ → ℚ)
    (x y : List ℚ) (pk : APeak) :
    (calculateGaussianFit curveFitO gaussO sqrtO x y pk).isOk = true ∧
    (∀ e, curveFitO (fitInputOf x y pk) = Except.error e →
      calculateGaussianFit curveFitO gaussO sqrtO x y pk =
        Except.ok { pk with gaussian_residuals := some 1, fitFailed := some true }) := by
  constructor
  · cases h : curveFitO (fitInputOf x y pk) <;>
      simp [calculateGaussianFit, h, Except.isOk, Except.toBool]
  · intro e he
    simp [calculateGaussianFit, he]

/-- Witness for C8: with the always-failing fitter, the analysis of a
concrete peak returns normally with residual `1.0`. -/
theorem gaussianFit_recovers_from_failure_witness :
    calculateGaussianFit failingFitO (fun _ _ => 0) (fun _ => 0)
        [0, 1, 2] [1, 5, 1] (basePeak 1 1 5) =
      Except.ok { basePeak 1 1 5 with gaussian_residuals := some 1, fitFailed := some true } :=
  (gaussianFit_recovers_from_failure failingFitO (fun _ _ => 0) (fun _ => 0)
    [0, 1, 2] [1, 5, 1] (basePeak 1 1 5)).2 FitErr.runtimeNonConvergence rfl

end CPP
